import Mathlib

/-!
Verification of the RustSwiftPi workspace (pi_contracts, pi_core, adapter_openai)
against its natural-language specification.

The Rust sources are shallowly embedded: pure functions become Lean functions,
the `&mut`-threaded agent loop becomes explicit state passing, `u64` counters
become `Nat`, `f64` cost arithmetic is modelled by exact rationals (`ℚ`), and
fallible Rust functions returning `Result<_, PiError>` become `Except PiError _`.
The external `serde_json` parser is modelled by an abstract argument
`parse : String → Option Json`; the async machinery (await points, channels) is
erased since every claim here concerns the sequential data flow.
-/

namespace PiVerify

/-- Error taxonomy of `pi_contracts::PiError` (`src/contracts/src/lib.rs`).
The `Io`/`Json` variants wrap foreign error types in Rust; they are modelled
with a message string, which no claim inspects. -/
inductive PiError where
  | invalid (msg : String)
  | tool (msg : String)
  | provider (msg : String)
  | adapter (msg : String)
  | io (msg : String)
  | jsonErr (msg : String)
  | http (msg : String)
  | timeout (msg : String)
deriving DecidableEq, Repr

/-- Model of Rust `str::trim` on the character list of a string: drop leading
and trailing whitespace.  Lean's `Char.isWhitespace` covers the ASCII
whitespace characters (space, tab, CR, LF); the Unicode-only whitespace
code points of Rust's `char::is_whitespace` play no role in any claim. -/
def rustTrim (s : List Char) : List Char :=
  ((s.dropWhile Char.isWhitespace).reverse.dropWhile Char.isWhitespace).reverse

/-- `pi_contracts::NonEmptyString`: a validated wrapper over a string. -/
structure NonEmptyString where
  val : String
deriving DecidableEq, Repr

/-- `NonEmptyString::new` (`src/contracts/src/lib.rs:55`): fails with
`Invalid("empty string")` when the string is empty after trimming. -/
def NonEmptyString.new (s : String) : Except PiError NonEmptyString :=
  if (rustTrim s.data).isEmpty then .error (.invalid "empty string")
  else .ok ⟨s⟩

/-- Minimal JSON value type standing in for `serde_json::Value`.  The embedded
code never inspects JSON values; they are produced by the abstract parser and
carried through opaquely. -/
inductive Json where
  | null
  | bool (b : Bool)
  | num (n : Int)
  | str (s : String)
  | arr (xs : List Json)
  | obj (fields : List (String × Json))

/-- `pi_contracts::TokenUsage` with `u64` fields as `Nat`. -/
structure TokenUsage where
  prompt_tokens : Nat
  completion_tokens : Nat
  total_tokens : Nat
  cache_read_tokens : Nat := 0
  cache_write_tokens : Nat := 0
deriving DecidableEq, Repr

/-- `pi_contracts::TokenCost` (USD per million tokens); `f64` modelled by `ℚ`. -/
structure TokenCost where
  input : ℚ
  output : ℚ
  cache_read : ℚ := 0
  cache_write : ℚ := 0
deriving DecidableEq, Repr

/-- `TokenCost::free`. -/
def TokenCost.free : TokenCost := ⟨0, 0, 0, 0⟩

/-- `pi_contracts::Currency`. -/
inductive Currency where
  | usd
deriving DecidableEq, Repr

/-- `pi_contracts::CostBreakdown`; `f64` modelled by `ℚ`. -/
structure CostBreakdown where
  input : ℚ
  output : ℚ
  cache_read : ℚ
  cache_write : ℚ
  total : ℚ
  currency : Currency
deriving DecidableEq, Repr

/-- `TokenCost::estimate_usd` (`src/contracts/src/lib.rs:141`). -/
def TokenCost.estimate_usd (c : TokenCost) (usage : TokenUsage) : CostBreakdown :=
  let per_m : ℚ := 1000000
  let input := ((usage.prompt_tokens : ℚ) / per_m) * c.input
  let output := ((usage.completion_tokens : ℚ) / per_m) * c.output
  let cache_read := ((usage.cache_read_tokens : ℚ) / per_m) * c.cache_read
  let cache_write := ((usage.cache_write_tokens : ℚ) / per_m) * c.cache_write
  { input := input
    output := output
    cache_read := cache_read
    cache_write := cache_write
    total := input + output + cache_read + cache_write
    currency := .usd }

/-- `pi_contracts::ToolCall`. -/
structure ToolCall where
  id : NonEmptyString
  name : NonEmptyString
  arguments : Json

/-- `pi_contracts::ToolSpec`. -/
structure ToolSpec where
  name : NonEmptyString
  description : String
  parameters : Json

/-- `pi_contracts::ChatMessage`: tagged sum of transcript messages. -/
inductive ChatMessage where
  | system (content : String)
  | user (content : String)
  | assistant (content : String) (tool_calls : List ToolCall)
  | tool (tool_call_id : NonEmptyString) (content : String)

/-- `pi_contracts::ChatRequest`; `f32` temperature modelled by `ℚ`. -/
structure ChatRequest where
  model : NonEmptyString
  messages : List ChatMessage
  tools : List ToolSpec
  temperature : Option ℚ
  max_tokens : Option Nat

/-- `pi_contracts::ChatResponse`. -/
structure ChatResponse where
  assistant : ChatMessage
  usage : Option TokenUsage := none
  cost : Option CostBreakdown := none

/-- `pi_contracts::Context`: a portable conversation context. -/
structure Context where
  messages : List ChatMessage

/-- `pi_contracts::ApiKind`. -/
inductive ApiKind where
  | openAiCompletions
  | openAiResponses
  | anthropicMessages
  | googleGenerativeAi
deriving DecidableEq, Repr

/-- `pi_contracts::InputModality`. -/
inductive InputModality where
  | text
  | image
  | audio
deriving DecidableEq, Repr

/-- `pi_contracts::Model` descriptor. -/
structure Model where
  id : NonEmptyString
  name : String
  api : ApiKind
  provider : NonEmptyString
  base_url : Option String := none
  reasoning : Bool := false
  input : List InputModality := []
  cost : TokenCost := TokenCost.free
  context_window : Nat := 0
  max_tokens : Nat := 0

/-- `pi_contracts::StreamErrorReason`. -/
inductive StreamErrorReason where
  | aborted
  | provider
  | decode
deriving DecidableEq, Repr

/-- `pi_contracts::ChatStreamEvent`: normalized streaming events. -/
inductive ChatStreamEvent where
  | textDelta (delta : String)
  | toolCallDelta (id : NonEmptyString) (name : NonEmptyString)
      (arguments_delta : String) (parsed_arguments : Option Json)
  | usage (usage : TokenUsage)
  | done
  | error (reason : StreamErrorReason) (message : String)

/-- `pi_core::ToolContext`: execution context passed to tools (`cwd` path). -/
structure ToolContext where
  cwd : String

/-- `pi_core::ToolResult`. -/
structure ToolResult where
  content : String
  details : Option Json := none

/-- The `pi_core::Tool` trait: a spec plus a fallible `execute`.  The async
`execute` is modelled as a function of the JSON arguments and the context. -/
structure Tool where
  spec : ToolSpec
  execute : Json → ToolContext → Except PiError ToolResult

/-- `pi_core::ToolSet`: an ordered collection of tools. -/
structure ToolSet where
  tools : List Tool

/-- `ToolSet::new` (`src/core/src/lib.rs:133`): collects the iterable as given.
It is total: the Rust signature returns `Self`, not `Result`. -/
def ToolSet.new (tools : List Tool) : ToolSet := ⟨tools⟩

/-- `ToolSet::specs`. -/
def ToolSet.specs (ts : ToolSet) : List ToolSpec := ts.tools.map (·.spec)

/-- `ToolSet::get` (`src/core/src/lib.rs:143`): the first tool whose
`spec().name` equals the requested name as a string. -/
def ToolSet.get (ts : ToolSet) (name : NonEmptyString) : Option Tool :=
  ts.tools.find? (fun t => t.spec.name.val == name.val)

/-- `pi_core::AgentConfig`. -/
structure AgentConfig where
  model : NonEmptyString
  system_prompt : Option String
  max_steps : Nat
  temperature : Option ℚ
  max_tokens : Option Nat

/-- The `ChatRequest` the agent builds each turn (`src/core/src/lib.rs:207`). -/
def mkRequest (cfg : AgentConfig) (ts : ToolSet) (transcript : List ChatMessage) : ChatRequest :=
  { model := cfg.model
    messages := transcript
    tools := ts.specs
    temperature := cfg.temperature
    max_tokens := cfg.max_tokens }

/-- `Agent::exec_tool_call` iterated over a turn's calls
(`src/core/src/lib.rs:236` and `244`): resolve each call by name, fail with
`Tool("unknown tool: <name>")` when absent, execute, and append a `Tool`
message carrying the call's id and the result content.  Errors propagate and
leave the transcript as appended so far. -/
def execCalls (ts : ToolSet) (ctx : ToolContext) :
    List ChatMessage → List ToolCall → List ChatMessage × Except PiError Unit
  | tr, [] => (tr, .ok ())
  | tr, call :: rest =>
    match ts.get call.name with
    | none => (tr, .error (.tool ("unknown tool: " ++ call.name.val)))
    | some t =>
      match t.execute call.arguments ctx with
      | .error e => (tr, .error e)
      | .ok out => execCalls ts ctx (tr ++ [ChatMessage.tool call.id out.content]) rest

/-- The bounded turn loop of `Agent::run_to_end` (`src/core/src/lib.rs:206`).
The provider (`ChatProvider::chat`) is modelled as a state-passing function
`chat : ChatRequest → σ → Except PiError (ChatResponse × σ)`; the state `σ`
stands for the provider's interior mutability.  Returns the final transcript,
the final provider state, and the outcome. -/
def runLoop {σ : Type} (chat : ChatRequest → σ → Except PiError (ChatResponse × σ))
    (ts : ToolSet) (cfg : AgentConfig) (ctx : ToolContext) :
    Nat → σ → List ChatMessage → List ChatMessage × σ × Except PiError Unit
  | 0, s, tr => (tr, s, .error (.provider "max_steps reached"))
  | n + 1, s, tr =>
    match chat (mkRequest cfg ts tr) s with
    | .error e => (tr, s, .error e)
    | .ok (resp, s') =>
      match resp.assistant with
      | .assistant content tool_calls =>
        let tr' := tr ++ [ChatMessage.assistant content tool_calls]
        if tool_calls.isEmpty then (tr', s', .ok ())
        else
          match execCalls ts ctx tr' tool_calls with
          | (tr'', .ok _) => runLoop chat ts cfg ctx n s' tr''
          | (tr'', .error e) => (tr'', s', .error e)
      | _ => (tr, s', .error (.provider "provider returned non-assistant message"))

/-- The transcript after the preamble of `Agent::run_to_end`
(`src/core/src/lib.rs:198`): a system message is appended only when the
transcript is empty and a system prompt is configured. -/
def initialTranscript (cfg : AgentConfig) (transcript : List ChatMessage) : List ChatMessage :=
  if transcript.isEmpty then
    match cfg.system_prompt with
    | some s => transcript ++ [ChatMessage.system s]
    | none => transcript
  else transcript

/-- `Agent::run_to_end` (`src/core/src/lib.rs:192`): append the (optional)
system prompt and the user message, then loop up to `max_steps` turns. -/
def run_to_end {σ : Type} (chat : ChatRequest → σ → Except PiError (ChatResponse × σ))
    (ts : ToolSet) (cfg : AgentConfig) (ctx : ToolContext) (s : σ)
    (transcript : List ChatMessage) (user_input : String) :
    List ChatMessage × σ × Except PiError Unit :=
  runLoop chat ts cfg ctx cfg.max_steps s
    (initialTranscript cfg transcript ++ [ChatMessage.user user_input])

/-- A scripted provider (the shape of the test `StubProvider`,
`src/core/src/lib.rs:511`): its state is the queue of remaining responses;
each call pops the front. -/
def scriptChat (_req : ChatRequest) (q : List ChatResponse) :
    Except PiError (ChatResponse × List ChatResponse) :=
  match q with
  | [] => .error (.provider "script exhausted")
  | r :: rest => .ok (r, rest)

/-- Provider state after `n` invocations of a stateful provider step `f`. -/
def stateAfter {σ : Type} (f : σ → ChatResponse × σ) : Nat → σ → σ
  | 0, s => s
  | n + 1, s => stateAfter f n (f s).2

/-- Tool calls carried by a message (empty for non-assistant messages). -/
def callsOf : ChatMessage → List ToolCall
  | .assistant _ cs => cs
  | _ => []

/-- Total number of tool calls issued during the first `n` turns of a run
against the stateful provider `f`. -/
def sumCalls {σ : Type} (f : σ → ChatResponse × σ) : Nat → σ → Nat
  | 0, _ => 0
  | n + 1, s => (callsOf (f s).1.assistant).length + sumCalls f n (f s).2

/-- Whether a message is a `Tool` result message. -/
def isToolMsg : ChatMessage → Bool
  | .tool _ _ => true
  | _ => false

/-- Whether a message is an `Assistant` message. -/
def isAssistantMsg : ChatMessage → Bool
  | .assistant _ _ => true
  | _ => false

/-- Number of `Tool` messages in a transcript. -/
def countTool (l : List ChatMessage) : Nat := (l.filter isToolMsg).length

/-- Number of `Assistant` messages in a transcript. -/
def countAssistant (l : List ChatMessage) : Nat := (l.filter isAssistantMsg).length

/-- `pi_core::AiClient`: catalog plus provider hub.  A provider entry is the
`chat` function of the registered `AiProvider`; `HashMap` lookup is modelled
by association-list lookup on the (injective) key. -/
structure AiClient where
  models : List Model
  providers : List (NonEmptyString × (ChatRequest → Except PiError ChatResponse))

/-- `ProviderHub::get` as used by `AiClient::provider`
(`src/core/src/lib.rs:438`). -/
def AiClient.providerFor (c : AiClient) (p : NonEmptyString) :
    Option (ChatRequest → Except PiError ChatResponse) :=
  (c.providers.find? (fun e => e.1.val == p.val)).map (·.2)

/-- The request `AiClient::complete` builds (`src/core/src/lib.rs:454`). -/
def clientRequest (model : Model) (ctx : Context) (tools : List ToolSpec)
    (temperature : Option ℚ) (max_tokens : Option Nat) : ChatRequest :=
  { model := model.id
    messages := ctx.messages
    tools := tools
    temperature := temperature
    max_tokens := max_tokens }

/-- `AiClient::complete` (`src/core/src/lib.rs:444`): resolve the provider,
send the request, and fill in `cost` from `model.cost` when the response
carries a usage but no cost. -/
def AiClient.complete (c : AiClient) (model : Model) (ctx : Context)
    (tools : List ToolSpec) (temperature : Option ℚ) (max_tokens : Option Nat) :
    Except PiError ChatResponse :=
  match c.providerFor model.provider with
  | none => .error (.invalid ("no provider registered: " ++ model.provider.val))
  | some p =>
    match p (clientRequest model ctx tools temperature max_tokens) with
    | .error e => .error e
    | .ok resp =>
      .ok (if resp.cost.isNone then
             match resp.usage with
             | some u => { resp with cost := some (model.cost.estimate_usd u) }
             | none => resp
           else resp)

/-- `pi_core::ChatStream`, reduced to the state relevant to `result()`: the
`Option`-wrapped final-result future, modelled by its resolved value.  The
event receiver plays no role in the claim about `result()`. -/
structure ChatStreamSt where
  res : Option (Except PiError ChatResponse)

/-- `ChatStream::result` (`src/core/src/lib.rs:84`): `Option::take` the stored
future; if it was already taken, fail with
`Invalid("stream result already taken")`. -/
def ChatStreamSt.result (s : ChatStreamSt) : Except PiError ChatResponse × ChatStreamSt :=
  match s.res with
  | none => (.error (.invalid "stream result already taken"), ⟨none⟩)
  | some r => (r, ⟨none⟩)

/-- Stream state after `n` further calls to `result`. -/
def takeN : Nat → ChatStreamSt → ChatStreamSt
  | 0, s => s
  | n + 1, s => takeN n s.result.2

/-- `adapter_openai::OpenAiUsage` stream field. -/
structure OpenAiUsage where
  prompt_tokens : Nat
  completion_tokens : Nat
  total_tokens : Nat
deriving DecidableEq, Repr

/-- Conversion applied by the assembler (`src/adapters/adapter_openai/src/lib.rs:532`). -/
def OpenAiUsage.toTokenUsage (u : OpenAiUsage) : TokenUsage :=
  { prompt_tokens := u.prompt_tokens
    completion_tokens := u.completion_tokens
    total_tokens := u.total_tokens
    cache_read_tokens := 0
    cache_write_tokens := 0 }

/-- `adapter_openai::OpenAiFunctionCallDelta`. -/
structure OpenAiFunctionCallDelta where
  name : Option String := none
  arguments : Option String := none
deriving DecidableEq, Repr

/-- `adapter_openai::OpenAiToolCallDelta` (`type` is rendered `kind`). -/
structure OpenAiToolCallDelta where
  index : Nat
  id : Option String := none
  kind : Option String := none
  function : Option OpenAiFunctionCallDelta := none
deriving DecidableEq, Repr

/-- `adapter_openai::OpenAiStreamDelta`. -/
structure OpenAiStreamDelta where
  content : Option String := none
  tool_calls : Option (List OpenAiToolCallDelta) := none
deriving DecidableEq, Repr

/-- `adapter_openai::OpenAiStreamChoice`. -/
structure OpenAiStreamChoice where
  delta : OpenAiStreamDelta
deriving DecidableEq, Repr

/-- `adapter_openai::OpenAiStreamChunk`. -/
structure OpenAiStreamChunk where
  choices : List OpenAiStreamChoice := []
  usage : Option OpenAiUsage := none
deriving DecidableEq, Repr

/-- `adapter_openai::ToolAcc`: accumulator for one indexed tool call. -/
structure ToolAcc where
  id : Option String := none
  name : Option String := none
  args : String := ""
deriving DecidableEq, Repr

/-- The assembler's `BTreeMap<usize, ToolAcc>` as a key-sorted association
list (insertions keep ascending key order, matching `BTreeMap` iteration). -/
abbrev ToolMap := List (Nat × ToolAcc)

/-- Map read: the accumulator at `index`, or a fresh default (the
`entry(..).or_default()` read half). -/
def ToolMap.getAcc (m : ToolMap) (k : Nat) : ToolAcc :=
  ((m.find? (fun e => e.1 == k)).map (·.2)).getD {}

/-- Map write at `index`, inserting in ascending key order. -/
def ToolMap.setAcc : ToolMap → Nat → ToolAcc → ToolMap
  | [], k, a => [(k, a)]
  | (k', a') :: rest, k, a =>
    if k < k' then (k, a) :: (k', a') :: rest
    else if k = k' then (k, a) :: rest
    else (k', a') :: ToolMap.setAcc rest k a

/-- `adapter_openai::StreamAssembler` state
(`src/adapters/adapter_openai/src/lib.rs:520`). -/
structure StreamAssembler where
  content : String := ""
  tools : ToolMap := []
  usage : Option TokenUsage := none

/-- One iteration of the tool-call-delta loop of `StreamAssembler::apply`
(`src/adapters/adapter_openai/src/lib.rs:556`): reject non-`function` kinds,
find or create the accumulator at `index`, lazily record id and name, append
the arguments fragment, and — only when id and name are both known — emit a
`ToolCallDelta` event.  `parse` models `serde_json::from_str::<Value>`. -/
def stepToolDelta (parse : String → Option Json) (st : StreamAssembler)
    (tc : OpenAiToolCallDelta) :
    Except PiError (StreamAssembler × Option ChatStreamEvent) :=
  if tc.kind.any (fun k => k != "function") then
    .error (.provider "openai: non-function tool call delta")
  else
    let acc := st.tools.getAcc tc.index
    let acc := match tc.id with
      | some i => { acc with id := some i }
      | none => acc
    match tc.function with
    | none => .ok ({ st with tools := st.tools.setAcc tc.index acc }, none)
    | some func =>
      let acc := match func.name with
        | some n => { acc with name := some n }
        | none => acc
      match func.arguments with
      | none => .ok ({ st with tools := st.tools.setAcc tc.index acc }, none)
      | some args_delta =>
        let acc := { acc with args := acc.args ++ args_delta }
        let st' := { st with tools := st.tools.setAcc tc.index acc }
        match acc.id, acc.name with
        | some i, some n =>
          match NonEmptyString.new i with
          | .error e => .error e
          | .ok idv =>
            match NonEmptyString.new n with
            | .error e => .error e
            | .ok nm =>
              .ok (st', some (ChatStreamEvent.toolCallDelta idv nm args_delta
                    (parse acc.args)))
        | _, _ => .ok (st', none)

/-- The tool-call-delta loop of `StreamAssembler::apply`, with early error
exit; each delta's event (when emitted) precedes the following deltas'. -/
def applyToolDeltas (parse : String → Option Json) :
    StreamAssembler → List OpenAiToolCallDelta →
    Except PiError (StreamAssembler × List ChatStreamEvent)
  | st, [] => .ok (st, [])
  | st, tc :: rest =>
    match stepToolDelta parse st tc with
    | .error e => .error e
    | .ok (st', ev) =>
      match applyToolDeltas parse st' rest with
      | .error e => .error e
      | .ok (st'', evs) => .ok (st'', ev.toList ++ evs)

/-- The usage stage of `StreamAssembler::apply`
(`src/adapters/adapter_openai/src/lib.rs:531`): overwrite the accumulated
usage and emit a `Usage` event when the chunk carries one. -/
def applyUsage (st : StreamAssembler) (ou : Option OpenAiUsage) :
    StreamAssembler × List ChatStreamEvent :=
  match ou with
  | some u => ({ st with usage := some u.toTokenUsage },
               [ChatStreamEvent.usage u.toTokenUsage])
  | none => (st, [])

/-- The content stage of `StreamAssembler::apply`
(`src/adapters/adapter_openai/src/lib.rs:549`): append a non-empty text delta
to the accumulated content and emit a `TextDelta` event. -/
def applyContent (st : StreamAssembler) (evs : List ChatStreamEvent)
    (oc : Option String) : StreamAssembler × List ChatStreamEvent :=
  match oc with
  | some s =>
    if s.isEmpty then (st, evs)
    else ({ st with content := st.content ++ s },
          evs ++ [ChatStreamEvent.textDelta s])
  | none => (st, evs)

/-- `StreamAssembler::apply` (`src/adapters/adapter_openai/src/lib.rs:528`):
record usage (emitting a `Usage` event), take the first choice only, append
non-empty text deltas (emitting `TextDelta`), then process tool-call deltas. -/
def StreamAssembler.apply (parse : String → Option Json) (st : StreamAssembler)
    (chunk : OpenAiStreamChunk) :
    Except PiError (StreamAssembler × List ChatStreamEvent) :=
  let (st, evs) := applyUsage st chunk.usage
  match chunk.choices.head? with
  | none => .ok (st, evs)
  | some choice =>
    let (st, evs) := applyContent st evs choice.delta.content
    match choice.delta.tool_calls with
    | none => .ok (st, evs)
    | some tcs =>
      match applyToolDeltas parse st tcs with
      | .error e => .error e
      | .ok (st', evs') => .ok (st', evs ++ evs')

/-- Fold `apply` over an ordered chunk sequence, accumulating events. -/
def processChunks (parse : String → Option Json) :
    StreamAssembler → List OpenAiStreamChunk →
    Except PiError (StreamAssembler × List ChatStreamEvent)
  | st, [] => .ok (st, [])
  | st, ch :: rest =>
    match st.apply parse ch with
    | .error e => .error e
    | .ok (st', evs) =>
      match processChunks parse st' rest with
      | .error e => .error e
      | .ok (st'', evs') => .ok (st'', evs ++ evs')

/-- The per-accumulator finalization of `StreamAssembler::finish`
(`src/adapters/adapter_openai/src/lib.rs:599`), over accumulators in index
order.  The Rust message `"openai: invalid tool args: {e}"` interpolates the
serde error; the parser being abstract here, the message is modelled without
the trailing detail. -/
def finishTools (parse : String → Option Json) :
    ToolMap → Except PiError (List ToolCall)
  | [] => .ok []
  | (_, acc) :: rest =>
    match acc.id with
    | none => .error (.provider "openai: tool call missing id")
    | some i =>
      match acc.name with
      | none => .error (.provider "openai: tool call missing name")
      | some n =>
        match parse acc.args with
        | none => .error (.provider "openai: invalid tool args")
        | some args =>
          match NonEmptyString.new i with
          | .error e => .error e
          | .ok idv =>
            match NonEmptyString.new n with
            | .error e => .error e
            | .ok nm =>
              match finishTools parse rest with
              | .error e => .error e
              | .ok tcs => .ok (⟨idv, nm, args⟩ :: tcs)

/-- `StreamAssembler::finish` (`src/adapters/adapter_openai/src/lib.rs:598`). -/
def StreamAssembler.finish (parse : String → Option Json) (st : StreamAssembler) :
    Except PiError ChatResponse :=
  match finishTools parse st.tools with
  | .error e => .error e
  | .ok tool_calls =>
    .ok { assistant := ChatMessage.assistant st.content tool_calls
          usage := st.usage
          cost := none }

/-- Text payloads of the emitted `TextDelta` events, in order. -/
def textDeltas (evs : List ChatStreamEvent) : List String :=
  evs.filterMap (fun e => match e with
    | .textDelta s => some s
    | _ => none)

/-- The last `Usage` event's payload, if any was emitted. -/
def lastUsage (evs : List ChatStreamEvent) : Option TokenUsage :=
  evs.foldl (fun a e => match e with
    | .usage u => some u
    | _ => a) none

/-- The `arguments` fragment a single tool-call delta contributes to tool
index `k` (empty when it addresses another index or carries no fragment). -/
def deltaFrag (tc : OpenAiToolCallDelta) (k : Nat) : String :=
  if tc.index == k then (tc.function.bind (·.arguments)).getD "" else ""

/-- Concatenation of the fragments a delta list contributes to index `k`. -/
def tcsFrags (tcs : List OpenAiToolCallDelta) (k : Nat) : String :=
  String.join (tcs.map (deltaFrag · k))

/-- The `arguments` fragments a single chunk contributes to tool index `k`
(first choice only, in delta order). -/
def chunkFrags (ch : OpenAiStreamChunk) (k : Nat) : String :=
  match ch.choices.head? with
  | none => ""
  | some choice =>
    match choice.delta.tool_calls with
    | none => ""
    | some tcs => tcsFrags tcs k

/-- Concatenation, over an ordered chunk sequence, of the `arguments`
fragments addressed to tool index `k`. -/
def fragsConcat (cs : List OpenAiStreamChunk) (k : Nat) : String :=
  String.join (cs.map (chunkFrags · k))

/-- The accumulated `args` string at key `k` of a tool map (empty when no
entry). -/
def ToolMap.argsAt (m : ToolMap) (k : Nat) : String :=
  ((m.find? (fun e => e.1 == k)).map (·.2.args)).getD ""

/-- The accumulated `args` string at index `k` (empty when no entry). -/
def argsAt (st : StreamAssembler) (k : Nat) : String :=
  ToolMap.argsAt st.tools k

/-- Keys of the assembler's tool map. -/
def toolKeys (st : StreamAssembler) : List Nat := st.tools.map (·.1)

/-- First index at which `pat` occurs as a contiguous sublist of `s` (Rust's
`str::find` for a literal pattern, on the character level). -/
def findSub (pat : List Char) : List Char → Option Nat
  | [] => if pat.isEmpty then some 0 else none
  | c :: rest =>
    if pat.isPrefixOf (c :: rest) then some 0
    else (findSub pat rest).map (· + 1)

/-- Whether `pat` occurs as a contiguous sublist of `s`. -/
def hasSub (pat s : List Char) : Bool := (findSub pat s).isSome

/-- Split at every `'\n'` (the raw split underlying Rust's `str::lines`);
always returns at least one (possibly empty) piece. -/
def splitNl : List Char → List (List Char)
  | [] => [[]]
  | c :: rest =>
    if c = '\n' then [] :: splitNl rest
    else
      match splitNl rest with
      | [] => [[c]]
      | l :: ls => (c :: l) :: ls

/-- Join pieces with single `'\n'` separators (inverse of `splitNl` on
newline-free pieces). -/
def joinNl : List (List Char) → List Char
  | [] => []
  | [l] => l
  | l :: ls => l ++ '\n' :: joinNl ls

/-- Drop all trailing `'\r'` characters: the combined effect of Rust
`str::lines` stripping one `'\r'` before each `'\n'` and the adapter's
additional `trim_end_matches('\r')`
(`src/adapters/adapter_openai/src/lib.rs:654`). -/
def dropTrailingCr (l : List Char) : List Char :=
  (l.reverse.dropWhile (· = '\r')).reverse

/-- The line sequence the adapter iterates for one SSE event head: Rust
`str::lines` (no trailing empty line) followed by the per-line `'\r'` trim. -/
def rustLines (s : List Char) : List (List Char) :=
  if s.isEmpty then []
  else
    let parts := splitNl s
    let parts := if parts.getLast? = some [] then parts.dropLast else parts
    parts.map dropTrailingCr

/-- Payload of a `data:` line: strip the tag, then Rust `str::trim_start`. -/
def dataOf (l : List Char) : Option (List Char) :=
  if ("data:".data).isPrefixOf l then
    some ((l.drop 5).dropWhile Char.isWhitespace)
  else none

/-- The `data` accumulation loop of `next_sse_data`
(`src/adapters/adapter_openai/src/lib.rs:652`): payload lines are appended,
separated by one `'\n'` whenever the accumulator is already non-empty. -/
def collectData (ls : List (List Char)) : List Char :=
  ls.foldl
    (fun acc line =>
      match dataOf line with
      | some d => (if acc.isEmpty then acc else acc ++ ['\n']) ++ d
      | none => acc)
    []

/-- `adapter_openai::next_sse_data` (`src/adapters/adapter_openai/src/lib.rs:630`):
locate the earliest blank-line delimiter (LF+LF or CRLF+CRLF), split the
buffer there, collect the head's `data:` payloads, and keep the remainder
buffered.  Returns `(extracted payload, new buffer)`. -/
def nextSseData (buf : List Char) : Option (List Char) × List Char :=
  let crlf := findSub ['\r', '\n', '\r', '\n'] buf
  let lf := findSub ['\n', '\n'] buf
  let split : Option (Nat × Nat) :=
    match crlf, lf with
    | some a, some b => if a < b then some (a, 4) else some (b, 2)
    | some a, none => some (a, 4)
    | none, some b => some (b, 2)
    | none, none => none
  match split with
  | none => (none, buf)
  | some (i, delim_len) =>
    let head := buf.take i
    let rest := buf.drop (i + delim_len)
    let data := collectData (rustLines head)
    (if data.isEmpty then none else some data, rest)

/-- Newline-led concatenation of the payloads after the first (the shape the
`data` accumulator takes once it is non-empty). -/
def tailJoin : List (List Char) → List Char
  | [] => []
  | d :: ds => '\n' :: d ++ tailJoin ds

/-- No two adjacent newline characters (shape of a well-formed event body). -/
def noAdjNl : List Char → Bool
  | c1 :: c2 :: t => !(c1 = '\n' && c2 = '\n') && noAdjNl (c2 :: t)
  | _ => true

/-! Concrete values used to instantiate the theorems below.  They mirror the
repository's own test fixtures (`EchoTool`, `StubProvider`, scenario S2). -/

/-- The echo tool of the core tests (`src/core/src/lib.rs:529`), with its
execution result at the fixture arguments. -/
def echoTool : Tool :=
  ⟨⟨⟨"echo"⟩, "echo", Json.obj []⟩, fun _ _ => .ok ⟨"hi", none⟩⟩

/-- A second tool carrying the same spec name `echo`. -/
def echoTool2 : Tool :=
  ⟨⟨⟨"echo"⟩, "echo duplicate", Json.obj []⟩, fun _ _ => .ok ⟨"", none⟩⟩

/-- Tool set holding only the echo tool. -/
def testTools : ToolSet := ToolSet.new [echoTool]

/-- Tool context fixture. -/
def ctxTest : ToolContext := ⟨"."⟩

/-- Agent configuration fixture (`max_steps = 8`). -/
def cfgTest : AgentConfig := ⟨⟨"gpt-test"⟩, none, 8, none, none⟩

/-- Agent configuration with `max_steps = 2`. -/
def cfgTwoSteps : AgentConfig := ⟨⟨"gpt-test"⟩, none, 2, none, none⟩

/-- The fixture tool call `call_1` on `echo`. -/
def call1 : ToolCall := ⟨⟨"call_1"⟩, ⟨"echo"⟩, Json.obj [("text", Json.str "hi")]⟩

/-- Assistant response carrying `call1`. -/
def respToolCall : ChatResponse := ⟨ChatMessage.assistant "" [call1], none, none⟩

/-- Terminal assistant response. -/
def respDone : ChatResponse := ⟨ChatMessage.assistant "done" [], none, none⟩

/-- A call naming a tool absent from `testTools`. -/
def badCall : ToolCall := ⟨⟨"c9"⟩, ⟨"nope"⟩, Json.null⟩

/-- Assistant response carrying the unknown-tool call. -/
def respBadCall : ChatResponse := ⟨ChatMessage.assistant "" [badCall], none, none⟩

/-- A provider that always answers with a tool call, counting invocations in
its state. -/
def alwaysToolStep (n : Nat) : ChatResponse × Nat := (respToolCall, n + 1)

/-- Model fixture with unit input/output rates (`src/core/src/lib.rs:657`). -/
def stubModel : Model :=
  ⟨⟨"m"⟩, "stub", .openAiCompletions, ⟨"stub"⟩, none, false, [.text], ⟨1, 1, 0, 0⟩, 1, 1⟩

/-- Usage fixture of the `StubStreamProvider` test. -/
def stubUsage : TokenUsage := ⟨1000000, 1000000, 2000000, 0, 0⟩

/-- Response fixture with usage but no cost. -/
def stubResp : ChatResponse := ⟨ChatMessage.assistant "hi" [], some stubUsage, none⟩

/-- Client holding one provider that returns `stubResp`. -/
def stubClient : AiClient := ⟨[stubModel], [(⟨"stub"⟩, fun _ => .ok stubResp)]⟩

/-- Concrete parser instance for scenario S2: recognizes exactly the
fully-assembled arguments string. -/
def parseS2 (s : String) : Option Json :=
  if s == "\x7b\"text\":\"hi\"\x7d" then some (Json.obj [("text", Json.str "hi")])
  else none

/-- Scenario S2 chunk 1: text delta. -/
def s2c1 : OpenAiStreamChunk := ⟨[⟨⟨some "Hello ", none⟩⟩], none⟩

/-- Scenario S2 chunk 2: tool delta with id, name and a partial args fragment. -/
def s2c2 : OpenAiStreamChunk :=
  ⟨[⟨⟨none, some [⟨0, some "call_1", some "function",
      some ⟨some "echo", some "\x7b\"text\":\"hi"⟩⟩]⟩⟩], none⟩

/-- Scenario S2 chunk 3: usage plus the closing args fragment. -/
def s2c3 : OpenAiStreamChunk :=
  ⟨[⟨⟨none, some [⟨0, none, none, some ⟨none, some "\"\x7d"⟩⟩]⟩⟩], some ⟨1, 2, 3⟩⟩

/-- The assembler state after scenario S2. -/
def s2State : StreamAssembler :=
  ⟨"Hello ", [(0, ⟨some "call_1", some "echo", "\x7b\"text\":\"hi\"\x7d"⟩)], some ⟨1, 2, 3, 0, 0⟩⟩

/-- The events emitted during scenario S2. -/
def s2Events : List ChatStreamEvent :=
  [ChatStreamEvent.textDelta "Hello ",
   ChatStreamEvent.toolCallDelta ⟨"call_1"⟩ ⟨"echo"⟩ "\x7b\"text\":\"hi" none,
   ChatStreamEvent.usage ⟨1, 2, 3, 0, 0⟩,
   ChatStreamEvent.toolCallDelta ⟨"call_1"⟩ ⟨"echo"⟩ "\"\x7d"
     (some (Json.obj [("text", Json.str "hi")]))]

/-- Parser instance recognizing only the empty JSON object string. -/
def parseCx (s : String) : Option Json :=
  if s == "\x7b\x7d" then some (Json.obj []) else none

/-- Counterexample chunk: args fragment for index 0 before any id or name. -/
def cx1 : OpenAiStreamChunk := ⟨[⟨⟨none, some [⟨0, none, none, some ⟨none, some "\x7b\x7d"⟩⟩]⟩⟩], none⟩

/-- Counterexample chunk: a blank id for index 0. -/
def cx2 : OpenAiStreamChunk := ⟨[⟨⟨none, some [⟨0, some " ", none, none⟩]⟩⟩], none⟩

/-- Counterexample chunk: a name for index 0 with no args fragment. -/
def cx3 : OpenAiStreamChunk := ⟨[⟨⟨none, some [⟨0, none, none, some ⟨some "x", none⟩⟩]⟩⟩], none⟩

/-- Counterexample chunk: index 1 accumulates args but never an id. -/
def cx4 : OpenAiStreamChunk := ⟨[⟨⟨none, some [⟨1, none, none, some ⟨none, some "\x7b\x7d"⟩⟩]⟩⟩], none⟩

/-- The assembler state after the counterexample chunks. -/
def cxState : StreamAssembler :=
  ⟨"", [(0, ⟨some " ", some "x", "\x7b\x7d"⟩), (1, ⟨none, none, "\x7b\x7d"⟩)], none⟩

/-- Witness chunk for the provider-error direction of finalization: id and
parseable args for index 0, but never a name. -/
def wbChunk : OpenAiStreamChunk :=
  ⟨[⟨⟨none, some [⟨0, some "call_1", none, some ⟨none, some "\x7b\x7d"⟩⟩]⟩⟩], none⟩

/-- The assembler state after `wbChunk`. -/
def wbState : StreamAssembler := ⟨"", [(0, ⟨some "call_1", none, "\x7b\x7d"⟩)], none⟩

/-! Helper lemmas. -/

lemma rustTrim_nil_iff (l : List Char) :
    rustTrim l = [] ↔ ∀ c ∈ l, c.isWhitespace := by
  unfold rustTrim
  rw [List.reverse_eq_nil_iff, List.dropWhile_eq_nil_iff]
  simp only [List.mem_reverse]
  constructor
  · intro h c hc
    rw [← List.takeWhile_append_dropWhile (p := Char.isWhitespace) (l := l)] at hc
    rcases List.mem_append.mp hc with h1 | h2
    · exact List.mem_takeWhile_imp h1
    · exact h c h2
  · intro h c hc
    exact h c ((List.dropWhile_sublist _).mem hc)

lemma takeN_none (n : Nat) : takeN n ⟨none⟩ = ⟨none⟩ := by
  induction n with
  | zero => rfl
  | succ n ih => simp only [takeN, ChatStreamSt.result]; exact ih

lemma find?_eq_get_of_first {α : Type} (p : α → Bool) :
    ∀ (l : List α) (i : Nat) (hi : i < l.length),
      p (l.get ⟨i, hi⟩) = true →
      (∀ j (hj : j < i), p (l.get ⟨j, Nat.lt_trans hj hi⟩) = false) →
      l.find? p = some (l.get ⟨i, hi⟩)
  | [], i, hi, _, _ => absurd hi (Nat.not_lt_zero i)
  | a :: t, 0, _, hp, _ => by
    rw [List.find?_cons_of_pos _ (by simpa using hp)]
    rfl
  | a :: t, i + 1, hi, hp, hfirst => by
    have ha : p a = false := by simpa using hfirst 0 (Nat.succ_pos i)
    rw [List.find?_cons_of_neg _ (by simp [ha])]
    exact find?_eq_get_of_first p t i (Nat.lt_of_succ_lt_succ hi) hp
      (fun j hj => by simpa using hfirst (j + 1) (Nat.succ_lt_succ hj))

lemma strFoldlAppend (l : List String) : ∀ a : String,
    l.foldl (· ++ ·) a = a ++ l.foldl (· ++ ·) "" := by
  induction l with
  | nil => intro a; simp [List.foldl, String.append_empty]
  | cons s t ih =>
    intro a
    simp only [List.foldl]
    rw [ih (a ++ s), ih ("" ++ s), String.empty_append, String.append_assoc]

lemma strJoin_cons (s : String) (l : List String) :
    String.join (s :: l) = s ++ String.join l := by
  simp only [String.join, List.foldl]
  rw [strFoldlAppend l ("" ++ s), String.empty_append]

lemma strJoin_append (l1 l2 : List String) :
    String.join (l1 ++ l2) = String.join l1 ++ String.join l2 := by
  induction l1 with
  | nil => rw [List.nil_append, show String.join [] = "" from rfl, String.empty_append]
  | cons s t ih => rw [List.cons_append, strJoin_cons, strJoin_cons, ih, String.append_assoc]

lemma textDeltas_append (a b : List ChatStreamEvent) :
    textDeltas (a ++ b) = textDeltas a ++ textDeltas b := by
  simp [textDeltas]

lemma lastUsage_foldl (b : List ChatStreamEvent) : ∀ i : Option TokenUsage,
    b.foldl (fun a e => match e with | .usage u => some u | _ => a) i
      = match lastUsage b with | some u => some u | none => i := by
  induction b with
  | nil => intro i; rfl
  | cons e t ih =>
    intro i
    simp only [lastUsage, List.foldl_cons]
    rw [ih, ih]
    rcases e with d | ⟨i', n', d', p'⟩ | u | - | ⟨r, msg⟩ <;>
      rcases lastUsage t with _ | u' <;> rfl

lemma lastUsage_append (a b : List ChatStreamEvent) :
    lastUsage (a ++ b) = match lastUsage b with
      | some u => some u
      | none => lastUsage a := by
  show (a ++ b).foldl _ none = _
  rw [List.foldl_append]
  exact lastUsage_foldl b _

lemma setAcc_find_self (m : ToolMap) (k : Nat) (a : ToolAcc) :
    (ToolMap.setAcc m k a).find? (fun e => e.1 == k) = some (k, a) := by
  induction m with
  | nil => simp [ToolMap.setAcc, List.find?]
  | cons e rest ih =>
    obtain ⟨k', a'⟩ := e
    by_cases h1 : k < k'
    · simp [ToolMap.setAcc, h1, List.find?]
    · by_cases h2 : k = k'
      · subst h2; simp [ToolMap.setAcc, h1, List.find?]
      · have h3 : (k' == k) = false := by
          simp only [beq_eq_false_iff_ne]
          exact fun hh => h2 hh.symm
        simp [ToolMap.setAcc, h1, h2, List.find?, h3, ih]

lemma setAcc_find_ne (m : ToolMap) (k : Nat) (a : ToolAcc) (k' : Nat) (h : k' ≠ k) :
    (ToolMap.setAcc m k a).find? (fun e => e.1 == k')
      = m.find? (fun e => e.1 == k') := by
  have hbeq : (k == k') = false := by
    simp only [beq_eq_false_iff_ne]
    exact Ne.symm h
  induction m with
  | nil => simp [ToolMap.setAcc, List.find?, hbeq]
  | cons e rest ih =>
    obtain ⟨kh, ah⟩ := e
    by_cases h1 : k < kh
    · simp [ToolMap.setAcc, h1, List.find?, hbeq]
    · by_cases h2 : k = kh
      · subst h2; simp [ToolMap.setAcc, h1, List.find?, hbeq]
      · simp [ToolMap.setAcc, h1, h2, List.find?, ih]

lemma argsAt_setAcc (m : ToolMap) (idx : Nat) (a : ToolAcc) (k : Nat) :
    ToolMap.argsAt (m.setAcc idx a) k
      = if idx = k then a.args else ToolMap.argsAt m k := by
  by_cases h : idx = k
  · subst h; simp [ToolMap.argsAt, setAcc_find_self]
  · simp [ToolMap.argsAt, setAcc_find_ne m idx a k (fun hh => h hh.symm), h]

lemma getAcc_args (m : ToolMap) (k : Nat) : (m.getAcc k).args = m.argsAt k := by
  unfold ToolMap.getAcc ToolMap.argsAt
  cases h : m.find? (fun e => e.1 == k) with
  | none => rfl
  | some e => rfl

lemma mem_keys_setAcc (m : ToolMap) (k : Nat) (a : ToolAcc) (x : Nat) :
    x ∈ (m.setAcc k a).map (·.1) ↔ x = k ∨ x ∈ m.map (·.1) := by
  induction m with
  | nil => simp [ToolMap.setAcc]
  | cons e rest ih =>
    obtain ⟨k', a'⟩ := e
    by_cases h1 : k < k'
    · simp [ToolMap.setAcc, h1]
    · by_cases h2 : k = k'
      · subst h2; simp [ToolMap.setAcc, h1]
      · simp [ToolMap.setAcc, h1, h2, ih]; tauto

lemma pairwise_keys_setAcc (m : ToolMap) (k : Nat) (a : ToolAcc)
    (h : (m.map (·.1)).Pairwise (· < ·)) :
    ((m.setAcc k a).map (·.1)).Pairwise (· < ·) := by
  induction m with
  | nil => simp [ToolMap.setAcc]
  | cons e rest ih =>
    obtain ⟨k', a'⟩ := e
    simp only [List.map_cons, List.pairwise_cons] at h
    obtain ⟨hlt, hrest⟩ := h
    by_cases h1 : k < k'
    · rw [show ToolMap.setAcc ((k', a') :: rest) k a = (k, a) :: (k', a') :: rest from
        by unfold ToolMap.setAcc; rw [if_pos h1]]
      simp only [List.map_cons, List.pairwise_cons]
      refine ⟨?_, ?_, hrest⟩
      · intro x hx
        simp only [List.mem_cons] at hx
        rcases hx with rfl | hx
        · exact h1
        · exact Nat.lt_trans h1 (hlt x hx)
      · exact hlt
    · by_cases h2 : k = k'
      · subst h2
        rw [show ToolMap.setAcc ((k, a') :: rest) k a = (k, a) :: rest from
          by unfold ToolMap.setAcc; rw [if_neg h1, if_pos rfl]]
        simp only [List.map_cons, List.pairwise_cons]
        exact ⟨hlt, hrest⟩
      · have h3 : k' < k := by omega
        rw [show ToolMap.setAcc ((k', a') :: rest) k a
            = (k', a') :: ToolMap.setAcc rest k a from
          by rw [ToolMap.setAcc, if_neg h1, if_neg h2]]
        simp only [List.map_cons, List.pairwise_cons]
        refine ⟨?_, ih hrest⟩
        intro x hx
        rcases (mem_keys_setAcc rest k a x).mp hx with rfl | hx
        · exact h3
        · exact hlt x hx

lemma find?_of_mem_pairwise (m : ToolMap) (k : Nat) (acc : ToolAcc)
    (hp : (m.map (·.1)).Pairwise (· < ·)) (hm : (k, acc) ∈ m) :
    m.find? (fun e => e.1 == k) = some (k, acc) := by
  induction m with
  | nil => cases hm
  | cons e rest ih =>
    obtain ⟨k', a'⟩ := e
    simp only [List.map_cons, List.pairwise_cons] at hp
    rcases List.mem_cons.mp hm with h | h
    · injection h with h1 h2
      subst h1
      subst h2
      simp [List.find?]
    · have hk : k' < k := hp.1 k (List.mem_map.mpr ⟨(k, acc), h, rfl⟩)
      have hbeq : (k' == k) = false := by
        simp only [beq_eq_false_iff_ne]
        exact Nat.ne_of_lt hk
      simp [List.find?, hbeq, ih hp.2 h]

lemma argsAt_setAcc_frag (m : ToolMap) (idx : Nat) (aNew : ToolAcc) (d : String)
    (hargs : aNew.args = (m.getAcc idx).args ++ d) (k : Nat) :
    ToolMap.argsAt (m.setAcc idx aNew) k
      = ToolMap.argsAt m k ++ (if idx == k then d else "") := by
  rw [argsAt_setAcc]
  by_cases hk : idx = k
  · subst hk
    simp only [beq_self_eq_true, if_true, if_pos rfl]
    rw [hargs, getAcc_args]
  · have : (idx == k) = false := by
      simp only [beq_eq_false_iff_ne]; exact hk
    rw [if_neg hk, this, if_neg (by simp), String.append_empty]

lemma stepToolDelta_shape (parse : String → Option Json) (st : StreamAssembler)
    (tc : OpenAiToolCallDelta) (st' : StreamAssembler) (ev : Option ChatStreamEvent)
    (h : stepToolDelta parse st tc = .ok (st', ev)) :
    ∃ aNew, st' = { st with tools := st.tools.setAcc tc.index aNew } ∧
      aNew.args = (st.tools.getAcc tc.index).args
        ++ ((tc.function.bind (·.arguments)).getD "") ∧
      textDeltas ev.toList = [] ∧ lastUsage ev.toList = none := by
  obtain ⟨idx, oid, okind, ofn⟩ := tc
  unfold stepToolDelta at h
  dsimp only at h ⊢
  by_cases hk : (Option.any (fun k => k != "function") okind) = true
  · rw [if_pos hk] at h
    cases h
  · rw [if_neg hk] at h
    rcases ofn with _ | ⟨onm, oargs⟩
    · dsimp only at h
      rw [Except.ok.injEq, Prod.mk.injEq] at h
      obtain ⟨hst, hev⟩ := h
      subst hst; subst hev
      refine ⟨_, rfl, ?_, rfl, rfl⟩
      cases oid <;> simp [String.append_empty]
    · rcases oargs with _ | d
      · dsimp only at h
        rw [Except.ok.injEq, Prod.mk.injEq] at h
        obtain ⟨hst, hev⟩ := h
        subst hst; subst hev
        refine ⟨_, rfl, ?_, rfl, rfl⟩
        cases oid <;> cases onm <;> simp [String.append_empty]
      · rcases oid with _ | i <;> rcases onm with _ | n <;> (try dsimp only at h)
        · -- id and name both come from the stored accumulator
          rcases hgid : (st.tools.getAcc idx).id with _ | i <;> rw [hgid] at h <;> (try dsimp only at h)
          · rw [Except.ok.injEq, Prod.mk.injEq] at h
            obtain ⟨hst, hev⟩ := h
            subst hst; subst hev
            exact ⟨_, rfl, rfl, rfl, rfl⟩
          · rcases hgnm : (st.tools.getAcc idx).name with _ | n <;> rw [hgnm] at h <;> (try dsimp only at h)
            · rw [Except.ok.injEq, Prod.mk.injEq] at h
              obtain ⟨hst, hev⟩ := h
              subst hst; subst hev
              exact ⟨_, rfl, rfl, rfl, rfl⟩
            · rcases hne1 : NonEmptyString.new i with e | idv <;> rw [hne1] at h
              · cases h
              · rcases hne2 : NonEmptyString.new n with e | nm <;> rw [hne2] at h
                · cases h
                · rw [Except.ok.injEq, Prod.mk.injEq] at h
                  obtain ⟨hst, hev⟩ := h
                  subst hst; subst hev
                  exact ⟨_, rfl, rfl, rfl, rfl⟩
        · -- name from the delta, id from the stored accumulator
          rcases hgid : (st.tools.getAcc idx).id with _ | i <;> rw [hgid] at h <;> (try dsimp only at h)
          · rw [Except.ok.injEq, Prod.mk.injEq] at h
            obtain ⟨hst, hev⟩ := h
            subst hst; subst hev
            exact ⟨_, rfl, rfl, rfl, rfl⟩
          · rcases hne1 : NonEmptyString.new i with e | idv <;> rw [hne1] at h
            · cases h
            · rcases hne2 : NonEmptyString.new n with e | nm <;> rw [hne2] at h
              · cases h
              · rw [Except.ok.injEq, Prod.mk.injEq] at h
                obtain ⟨hst, hev⟩ := h
                subst hst; subst hev
                exact ⟨_, rfl, rfl, rfl, rfl⟩
        · -- id from the delta, name from the stored accumulator
          rcases hgnm : (st.tools.getAcc idx).name with _ | n <;> rw [hgnm] at h <;> (try dsimp only at h)
          · rw [Except.ok.injEq, Prod.mk.injEq] at h
            obtain ⟨hst, hev⟩ := h
            subst hst; subst hev
            exact ⟨_, rfl, rfl, rfl, rfl⟩
          · rcases hne1 : NonEmptyString.new i with e | idv <;> rw [hne1] at h
            · cases h
            · rcases hne2 : NonEmptyString.new n with e | nm <;> rw [hne2] at h
              · cases h
              · rw [Except.ok.injEq, Prod.mk.injEq] at h
                obtain ⟨hst, hev⟩ := h
                subst hst; subst hev
                exact ⟨_, rfl, rfl, rfl, rfl⟩
        · -- id and name both from the delta
          rcases hne1 : NonEmptyString.new i with e | idv <;> rw [hne1] at h
          · cases h
          · rcases hne2 : NonEmptyString.new n with e | nm <;> rw [hne2] at h
            · cases h
            · rw [Except.ok.injEq, Prod.mk.injEq] at h
              obtain ⟨hst, hev⟩ := h
              subst hst; subst hev
              exact ⟨_, rfl, rfl, rfl, rfl⟩

lemma tcsFrags_cons (tc : OpenAiToolCallDelta) (rest : List OpenAiToolCallDelta) (k : Nat) :
    tcsFrags (tc :: rest) k = deltaFrag tc k ++ tcsFrags rest k := by
  unfold tcsFrags
  rw [List.map_cons, strJoin_cons]

lemma applyToolDeltas_invariant (parse : String → Option Json)
    (tcs : List OpenAiToolCallDelta) :
    ∀ st st' evs, applyToolDeltas parse st tcs = .ok (st', evs) →
      st'.content = st.content ∧ st'.usage = st.usage ∧
      (∀ k, ToolMap.argsAt st'.tools k = ToolMap.argsAt st.tools k ++ tcsFrags tcs k) ∧
      ((st.tools.map (·.1)).Pairwise (· < ·) → (st'.tools.map (·.1)).Pairwise (· < ·)) ∧
      textDeltas evs = [] ∧ lastUsage evs = none := by
  induction tcs with
  | nil =>
    intro st st' evs h
    unfold applyToolDeltas at h
    rw [Except.ok.injEq, Prod.mk.injEq] at h
    obtain ⟨hst, hev⟩ := h
    subst hst; subst hev
    exact ⟨rfl, rfl, fun k => by rw [show tcsFrags [] k = "" from rfl, String.append_empty], id, rfl, rfl⟩
  | cons tc rest ih =>
    intro st st' evs h
    unfold applyToolDeltas at h
    rcases hstep : stepToolDelta parse st tc with e | ⟨st1, ev⟩ <;> rw [hstep] at h
    · cases h
    · dsimp only at h
      rcases hrec : applyToolDeltas parse st1 rest with e | ⟨st2, evs2⟩ <;> rw [hrec] at h
      · cases h
      · dsimp only at h
        rw [Except.ok.injEq, Prod.mk.injEq] at h
        obtain ⟨hst, hev⟩ := h
        subst hst; subst hev
        obtain ⟨aNew, rfl, hargs, hevt, hevu⟩ :=
          stepToolDelta_shape parse st tc st1 ev hstep
        obtain ⟨ih1, ih2, ih3, ih4, ih5, ih6⟩ := ih _ st2 evs2 hrec
        refine ⟨ih1, ih2, ?_, ?_, ?_, ?_⟩
        · intro k
          rw [ih3 k]
          show ToolMap.argsAt (st.tools.setAcc tc.index aNew) k ++ _ = _
          rw [argsAt_setAcc_frag st.tools tc.index aNew _ hargs k, tcsFrags_cons,
            String.append_assoc]
          congr 1
        · intro hp
          exact ih4 (pairwise_keys_setAcc st.tools tc.index aNew hp)
        · rw [textDeltas_append, hevt, ih5]
          rfl
        · rw [lastUsage_append, ih6, hevu]

lemma applyUsage_spec (st : StreamAssembler) (ou : Option OpenAiUsage) :
    (applyUsage st ou).1.content = st.content ∧
    (applyUsage st ou).1.tools = st.tools ∧
    (applyUsage st ou).1.usage
      = (match ou with | some u => some u.toTokenUsage | none => st.usage) ∧
    textDeltas (applyUsage st ou).2 = [] ∧
    lastUsage (applyUsage st ou).2 = ou.map (·.toTokenUsage) := by
  cases ou <;> exact ⟨rfl, rfl, rfl, rfl, rfl⟩

lemma applyContent_spec (st : StreamAssembler) (evs : List ChatStreamEvent)
    (oc : Option String) :
    ∃ tevs, applyContent st evs oc
        = ({ st with content := st.content ++ String.join (textDeltas tevs) },
           evs ++ tevs) ∧
      lastUsage tevs = none := by
  rcases oc with _ | s
  · refine ⟨[], ?_, rfl⟩
    show (st, evs) = _
    rw [show String.join (textDeltas []) = "" from rfl, String.append_empty,
      List.append_nil]
  · by_cases hs : s.isEmpty
    · refine ⟨[], ?_, rfl⟩
      show applyContent st evs (some s) = _
      unfold applyContent
      dsimp only
      rw [if_pos hs, show String.join (textDeltas []) = "" from rfl,
        String.append_empty, List.append_nil]
    · refine ⟨[ChatStreamEvent.textDelta s], ?_, rfl⟩
      show applyContent st evs (some s) = _
      unfold applyContent
      dsimp only
      rw [if_neg hs]
      rw [show String.join (textDeltas [ChatStreamEvent.textDelta s]) = s from rfl]

lemma apply_invariant (parse : String → Option Json) (st : StreamAssembler)
    (ch : OpenAiStreamChunk) (st' : StreamAssembler) (evs : List ChatStreamEvent)
    (h : st.apply parse ch = .ok (st', evs)) :
    st'.content = st.content ++ String.join (textDeltas evs) ∧
    (∀ k, ToolMap.argsAt st'.tools k = ToolMap.argsAt st.tools k ++ chunkFrags ch k) ∧
    ((st.tools.map (·.1)).Pairwise (· < ·) → (st'.tools.map (·.1)).Pairwise (· < ·)) ∧
    st'.usage = (match ch.usage with | some u => some u.toTokenUsage | none => st.usage) ∧
    lastUsage evs = ch.usage.map (·.toTokenUsage) := by
  obtain ⟨u1, u2, u3, u4, u5⟩ := applyUsage_spec st ch.usage
  unfold StreamAssembler.apply at h
  rcases hu : applyUsage st ch.usage with ⟨st1, evs1⟩
  rw [hu] at h u1 u2 u3 u4 u5
  dsimp only at h u1 u2 u3 u4 u5
  rcases hhd : ch.choices.head? with _ | choice <;> rw [hhd] at h <;> dsimp only at h
  · rw [Except.ok.injEq, Prod.mk.injEq] at h
    obtain ⟨hst, hev⟩ := h
    subst hst; subst hev
    refine ⟨by rw [u4, u1, show String.join [] = "" from rfl, String.append_empty],
      fun k => ?_, fun hp => by rwa [u2], u3, u5⟩
    rw [u2, show chunkFrags ch k = "" from by unfold chunkFrags; rw [hhd],
      String.append_empty]
  · obtain ⟨tevs, hcont, htevu⟩ := applyContent_spec st1 evs1 choice.delta.content
    rw [hcont] at h
    dsimp only at h
    rcases htc : choice.delta.tool_calls with _ | tcs <;> (try rw [htc] at h) <;> (try dsimp only at h)
    · rw [Except.ok.injEq, Prod.mk.injEq] at h
      obtain ⟨hst, hev⟩ := h
      subst hst; subst hev
      have hfrag : ∀ k, chunkFrags ch k = "" := fun k => by
        unfold chunkFrags; rw [hhd]; dsimp only; rw [htc]
      refine ⟨?_, fun k => by rw [u2, hfrag, String.append_empty], fun hp => by rwa [u2],
        u3, ?_⟩
      · rw [u1, textDeltas_append, u4, List.nil_append]
      · rw [lastUsage_append, htevu, u5]
    · rcases hatd : applyToolDeltas parse
          { st1 with content := st1.content ++ String.join (textDeltas tevs) } tcs
        with e | ⟨st2, evs2⟩ <;> rw [hatd] at h
      · cases h
      · dsimp only at h
        rw [Except.ok.injEq, Prod.mk.injEq] at h
        obtain ⟨hst, hev⟩ := h
        subst hst; subst hev
        obtain ⟨t1, t2, t3, t4, t5, t6⟩ := applyToolDeltas_invariant parse tcs _ st2 evs2 hatd
        have hfrag : ∀ k, chunkFrags ch k = tcsFrags tcs k := fun k => by
          unfold chunkFrags; rw [hhd]; dsimp only; rw [htc]
        refine ⟨?_, fun k => ?_, fun hp => ?_, by rw [t2]; exact u3, ?_⟩
        · rw [t1]
          dsimp only
          rw [u1, textDeltas_append, textDeltas_append, u4, List.nil_append, t5,
            List.append_nil]
        · rw [t3 k]
          dsimp only
          rw [u2, hfrag]
        · exact t4 (by dsimp only; rwa [u2])
        · rw [lastUsage_append, lastUsage_append, t6, htevu, u5]

lemma findSub_some_isPre (pat : List Char) :
    ∀ (s : List Char) (n : Nat), findSub pat s = some n →
      pat.isPrefixOf (s.drop n) = true := by
  intro s
  induction s with
  | nil =>
    intro n h
    rcases pat with _ | ⟨p, ps⟩
    · simp only [findSub, List.isEmpty_nil, if_true, Option.some.injEq] at h
      subst h
      rfl
    · simp [findSub] at h
  | cons c t ih =>
    intro n h
    unfold findSub at h
    by_cases hc : pat.isPrefixOf (c :: t) = true
    · rw [if_pos hc, Option.some.injEq] at h
      subst h
      exact hc
    · rw [if_neg hc] at h
      rcases hrec : findSub pat t with _ | m <;> rw [hrec] at h
      · cases h
      · simp only [Option.map_some', Option.some.injEq] at h
        subst h
        exact ih m hrec

lemma findSub_eq_some (pat : List Char) :
    ∀ (s : List Char) (n : Nat),
      pat.isPrefixOf (s.drop n) = true →
      (∀ j, j < n → pat.isPrefixOf (s.drop j) = false) →
      findSub pat s = some n := by
  intro s
  induction s with
  | nil =>
    intro n hn hj
    rcases Nat.eq_zero_or_pos n with rfl | hpos
    · unfold findSub
      rcases pat with _ | ⟨p, ps⟩
      · rfl
      · rw [List.drop_nil] at hn
        cases hn
    · have h0 := hj 0 hpos
      rw [List.drop_nil] at h0 hn
      rw [hn] at h0
      cases h0
  | cons c t ih =>
    intro n hn hj
    rcases n with _ | m
    · rw [List.drop_zero] at hn
      unfold findSub
      rw [if_pos hn]
    · have h0 : pat.isPrefixOf (c :: t) = false := by
        have := hj 0 (Nat.succ_pos m)
        rwa [List.drop_zero] at this
      unfold findSub
      rw [if_neg (by simp [h0]), ih m hn
        (fun j hjm => hj (j + 1) (Nat.succ_lt_succ hjm))]
      rfl

lemma isPre_head (p : Char) (ps : List Char) (l : List Char)
    (h : ((p :: ps).isPrefixOf l) = true) : l.get? 0 = some p := by
  rcases l with _ | ⟨c, t⟩
  · cases h
  · simp only [List.isPrefixOf, Bool.and_eq_true, beq_iff_eq] at h
    rw [h.1]
    rfl

lemma isPre_two (a b : Char) (l : List Char) :
    ([a, b].isPrefixOf l) = true ↔ l.get? 0 = some a ∧ l.get? 1 = some b := by
  rcases l with _ | ⟨x, _ | ⟨y, t⟩⟩
  · constructor
    · intro h; cases h
    · rintro ⟨ha, -⟩; cases ha
  · constructor
    · intro h
      rw [List.isPrefixOf_cons₂, List.isPrefixOf_cons_nil] at h
      simp at h
    · rintro ⟨-, hb⟩; cases hb
  · constructor
    · intro h
      rw [List.isPrefixOf_cons₂, List.isPrefixOf_cons₂, List.isPrefixOf_nil_left,
        Bool.and_eq_true, Bool.and_eq_true] at h
      obtain ⟨ha, hb, -⟩ := h
      rw [beq_iff_eq] at ha hb
      subst ha; subst hb
      exact ⟨rfl, rfl⟩
    · rintro ⟨ha, hb⟩
      injection ha with ha
      injection hb with hb
      subst ha; subst hb
      rw [List.isPrefixOf_cons₂, List.isPrefixOf_cons₂, List.isPrefixOf_nil_left]
      simp

lemma noAdjNl_no_pair :
    ∀ (l : List Char), noAdjNl l = true →
      ∀ j, ¬(l.get? j = some '\n' ∧ l.get? (j + 1) = some '\n') := by
  intro l
  induction l with
  | nil => intro _ j ⟨h1, _⟩; cases h1
  | cons c t ih =>
    intro h j hpair
    rcases t with _ | ⟨d, t'⟩
    · rcases j with _ | j
      · cases hpair.2
      · cases hpair.1
    · rw [show noAdjNl (c :: d :: t') = (!(c = '\n' && d = '\n') && noAdjNl (d :: t'))
        from rfl, Bool.and_eq_true] at h
      rcases j with _ | j
      · have hc : c = '\n' := by injection hpair.1
        have hd : d = '\n' := by injection hpair.2
        subst hc; subst hd
        simp at h
      · exact ih h.2 j hpair

lemma noAdjNl_of_no_nl : ∀ (l : List Char), '\n' ∉ l → noAdjNl l = true := by
  intro l
  induction l with
  | nil => intro _; rfl
  | cons c t ih =>
    intro h
    rcases t with _ | ⟨d, t'⟩
    · rfl
    · rw [show noAdjNl (c :: d :: t') = (!(c = '\n' && d = '\n') && noAdjNl (d :: t'))
        from rfl, Bool.and_eq_true]
      refine ⟨?_, ih (fun hm => h (List.mem_cons_of_mem c hm))⟩
      have hc : c ≠ '\n' := fun hh => h (hh ▸ List.mem_cons_self c _)
      simp [hc]

lemma joinNl_cons_cons (l l' : List Char) (ls : List (List Char)) :
    joinNl (l :: l' :: ls) = l ++ '\n' :: joinNl (l' :: ls) := rfl

lemma joinNl_ne_nil : ∀ (ls : List (List Char)), ls ≠ [] → (∀ l ∈ ls, l ≠ []) →
    joinNl ls ≠ [] := by
  intro ls hne hl
  rcases ls with _ | ⟨l, _ | ⟨l', ls'⟩⟩
  · exact absurd rfl hne
  · exact hl l (List.mem_cons_self _ _)
  · rw [joinNl_cons_cons]
    intro hcontra
    rcases List.append_eq_nil.mp hcontra with ⟨-, h2⟩
    cases h2

lemma mem_joinNl (c : Char) (hc : c ≠ '\n') :
    ∀ (ls : List (List Char)), (∀ l ∈ ls, c ∉ l) → c ∉ joinNl ls := by
  intro ls
  induction ls with
  | nil => intro _ h; cases h
  | cons l ls ih =>
    intro hl hmem
    rcases ls with _ | ⟨l', ls'⟩
    · exact hl l (List.mem_cons_self _ _) hmem
    · rw [joinNl_cons_cons] at hmem
      rcases List.mem_append.mp hmem with h | h
      · exact hl l (List.mem_cons_self _ _) h
      · rcases List.mem_cons.mp h with h | h
        · exact hc h
        · exact ih (fun x hx => hl x (List.mem_cons_of_mem _ hx)) h

lemma joinNl_head? : ∀ (l : List Char) (ls : List (List Char)), l ≠ [] →
    (joinNl (l :: ls)).head? = l.head? := by
  intro l ls hne
  rcases ls with _ | ⟨l', ls'⟩
  · rfl
  · rw [joinNl_cons_cons]
    rcases l with _ | ⟨c, t⟩
    · exact absurd rfl hne
    · rfl

lemma noAdjNl_append_nl : ∀ (l r : List Char), '\n' ∉ l → noAdjNl r = true →
    r.head? ≠ some '\n' → noAdjNl (l ++ '\n' :: r) = true := by
  intro l
  induction l with
  | nil =>
    intro r _ hr hhead
    rcases r with _ | ⟨d, t⟩
    · rfl
    · have hd : d ≠ '\n' := fun hh => hhead (by rw [hh]; rfl)
      rw [List.nil_append,
        show noAdjNl ('\n' :: d :: t) = (!('\n' = '\n' && d = '\n') && noAdjNl (d :: t))
          from rfl, Bool.and_eq_true]
      exact ⟨by simp [hd], hr⟩
  | cons c l' ih =>
    intro r hl hr hhead
    have hc : c ≠ '\n' := fun hh => hl (hh ▸ List.mem_cons_self c _)
    have hrest : noAdjNl (l' ++ '\n' :: r) = true :=
      ih r (fun hm => hl (List.mem_cons_of_mem c hm)) hr hhead
    rcases hsplit : l' ++ '\n' :: r with _ | ⟨d, t⟩
    · rcases List.append_eq_nil.mp hsplit with ⟨-, h2⟩
      cases h2
    · rw [List.cons_append, hsplit,
        show noAdjNl (c :: d :: t) = (!(c = '\n' && d = '\n') && noAdjNl (d :: t))
          from rfl, Bool.and_eq_true]
      rw [hsplit] at hrest
      exact ⟨by simp [hc], hrest⟩

lemma head?_mem_char (l : List Char) (a : Char) (h : l.head? = some a) : a ∈ l := by
  rcases l with _ | ⟨c, t⟩
  · cases h
  · injection h with h
    exact h ▸ List.mem_cons_self c t

lemma noAdjNl_joinNl : ∀ (ls : List (List Char)),
    (∀ l ∈ ls, l ≠ [] ∧ '\n' ∉ l) → noAdjNl (joinNl ls) = true := by
  intro ls
  induction ls with
  | nil => intro _; rfl
  | cons l ls ih =>
    intro hl
    rcases ls with _ | ⟨l', ls'⟩
    · exact noAdjNl_of_no_nl l (hl l (List.mem_cons_self _ _)).2
    · rw [joinNl_cons_cons]
      refine noAdjNl_append_nl l _ (hl l (List.mem_cons_self _ _)).2
        (ih (fun x hx => hl x (List.mem_cons_of_mem _ hx))) ?_
      rw [joinNl_head? l' ls' (hl l' (List.mem_cons_of_mem _ (List.mem_cons_self _ _))).1]
      intro hcontra
      exact (hl l' (List.mem_cons_of_mem _ (List.mem_cons_self _ _))).2
        (head?_mem_char l' '\n' hcontra)

lemma getLast?_append_ne_nil : ∀ (a b : List Char), b ≠ [] →
    (a ++ b).getLast? = b.getLast? := by
  intro a
  induction a with
  | nil => intro b _; rfl
  | cons c a' ih =>
    intro b hb
    rw [List.cons_append]
    have hne : a' ++ b ≠ [] := fun hh => hb (List.append_eq_nil.mp hh).2
    rcases hsplit : a' ++ b with _ | ⟨d, t⟩
    · exact absurd hsplit hne
    · rw [show (c :: d :: t).getLast? = (d :: t).getLast? from rfl, ← hsplit, ih b hb]

lemma getLast?_joinNl : ∀ (ls : List (List Char)) (x : Char), ls ≠ [] →
    (∀ l ∈ ls, l ≠ []) → (joinNl ls).getLast? = some x →
    ∃ l ∈ ls, l.getLast? = some x := by
  intro ls
  induction ls with
  | nil => intro x hne _ _; exact absurd rfl hne
  | cons l ls ih =>
    intro x _ hl hlast
    rcases ls with _ | ⟨l', ls'⟩
    · exact ⟨l, List.mem_cons_self _ _, hlast⟩
    · rw [joinNl_cons_cons, getLast?_append_ne_nil l _ (by
        intro hh
        cases hh)] at hlast
      have hjoin_ne : joinNl (l' :: ls') ≠ [] :=
        joinNl_ne_nil _ (by simp) (fun y hy => hl y (List.mem_cons_of_mem _ hy))
      rcases hsplit : joinNl (l' :: ls') with _ | ⟨d, t⟩
      · exact absurd hsplit hjoin_ne
      · rw [hsplit, show ('\n' :: d :: t).getLast? = (d :: t).getLast? from rfl,
          ← hsplit] at hlast
        obtain ⟨l₀, hmem, hl₀⟩ := ih x (by simp)
          (fun y hy => hl y (List.mem_cons_of_mem _ hy)) hlast
        exact ⟨l₀, List.mem_cons_of_mem _ hmem, hl₀⟩

lemma splitNl_no_nl : ∀ (l : List Char), '\n' ∉ l → splitNl l = [l] := by
  intro l
  induction l with
  | nil => intro _; rfl
  | cons c t ih =>
    intro h
    have hc : c ≠ '\n' := fun hh => h (hh ▸ List.mem_cons_self c _)
    unfold splitNl
    rw [if_neg hc, ih (fun hm => h (List.mem_cons_of_mem c hm))]

lemma splitNl_append_nl : ∀ (l r : List Char), '\n' ∉ l →
    splitNl (l ++ '\n' :: r) = l :: splitNl r := by
  intro l
  induction l with
  | nil => intro r _; rfl
  | cons c t ih =>
    intro r h
    have hc : c ≠ '\n' := fun hh => h (hh ▸ List.mem_cons_self c _)
    rw [List.cons_append]
    simp only [splitNl]
    rw [if_neg hc, ih r (fun hm => h (List.mem_cons_of_mem c hm))]

lemma splitNl_joinNl : ∀ (ls : List (List Char)), ls ≠ [] →
    (∀ l ∈ ls, '\n' ∉ l) → splitNl (joinNl ls) = ls := by
  intro ls
  induction ls with
  | nil => intro hne _; exact absurd rfl hne
  | cons l ls ih =>
    intro _ hl
    rcases ls with _ | ⟨l', ls'⟩
    · exact splitNl_no_nl l (hl l (List.mem_cons_self _ _))
    · rw [joinNl_cons_cons, splitNl_append_nl l _ (hl l (List.mem_cons_self _ _)),
        ih (by simp) (fun y hy => hl y (List.mem_cons_of_mem _ hy))]

lemma dropTrailingCr_no_cr (l : List Char) (h : '\r' ∉ l) : dropTrailingCr l = l := by
  unfold dropTrailingCr
  rcases hrev : l.reverse with _ | ⟨c, t⟩
  · rw [List.reverse_eq_nil_iff.mp hrev]
    rfl
  · have hcmem : c ∈ l := List.mem_reverse.mp (by rw [hrev]; exact List.mem_cons_self c t)
    have hc : ¬ (c = '\r') := fun hh => h (hh ▸ hcmem)
    rw [List.dropWhile_cons, if_neg (by simpa using hc), ← hrev, List.reverse_reverse]

lemma map_dropTrailingCr_id : ∀ (ls : List (List Char)), (∀ l ∈ ls, '\r' ∉ l) →
    ls.map dropTrailingCr = ls := by
  intro ls
  induction ls with
  | nil => intro _; rfl
  | cons l ls ih =>
    intro h
    rw [List.map_cons, dropTrailingCr_no_cr l (h l (List.mem_cons_self _ _)),
      ih (fun y hy => h y (List.mem_cons_of_mem _ hy))]

lemma rustLines_joinNl (ls : List (List Char)) (hne : ls ≠ [])
    (hl : ∀ l ∈ ls, l ≠ [] ∧ '\n' ∉ l ∧ '\r' ∉ l) :
    rustLines (joinNl ls) = ls := by
  unfold rustLines
  have hjne : joinNl ls ≠ [] := joinNl_ne_nil ls hne (fun l h => (hl l h).1)
  rw [if_neg (by simpa [List.isEmpty_iff] using hjne)]
  rw [splitNl_joinNl ls hne (fun l h => (hl l h).2.1)]
  have hlast : ls.getLast? ≠ some [] := by
    intro hcontra
    have : ([] : List Char) ∈ ls := List.mem_of_getLast?_eq_some hcontra
    exact (hl [] this).1 rfl
  show List.map dropTrailingCr (if ls.getLast? = some [] then ls.dropLast else ls) = ls
  rw [if_neg hlast]
  exact map_dropTrailingCr_id ls (fun l h => (hl l h).2.2)

lemma collectData_aux : ∀ (ls : List (List Char)) (acc : List Char), acc ≠ [] →
    ls.foldl
      (fun acc line =>
        match dataOf line with
        | some d => (if acc.isEmpty then acc else acc ++ ['\n']) ++ d
        | none => acc)
      acc = acc ++ tailJoin (ls.filterMap dataOf) := by
  intro ls
  induction ls with
  | nil =>
    intro acc _
    rw [List.foldl_nil, List.filterMap_nil, show tailJoin [] = [] from rfl,
      List.append_nil]
  | cons l ls ih =>
    intro acc hacc
    rw [List.foldl_cons, List.filterMap_cons]
    rcases hd : dataOf l with _ | d <;> (try rw [hd]) <;> (try dsimp only)
    · exact ih acc hacc
    · have hne : (if acc.isEmpty then acc else acc ++ ['\n']) ++ d ≠ [] := by
        rw [if_neg (by simpa [List.isEmpty_iff] using hacc)]
        intro hh
        rcases List.append_eq_nil.mp hh with ⟨h1, -⟩
        rcases List.append_eq_nil.mp h1 with ⟨-, h2⟩
        cases h2
      rw [ih _ hne, if_neg (by simpa [List.isEmpty_iff] using hacc)]
      show acc ++ ['\n'] ++ d ++ tailJoin (ls.filterMap dataOf)
        = acc ++ ('\n' :: d ++ tailJoin (ls.filterMap dataOf))
      rw [List.append_assoc, List.append_assoc]
      rfl

lemma joinNl_eq_tailJoin : ∀ (ds : List (List Char)) (d : List Char),
    joinNl (d :: ds) = d ++ tailJoin ds := by
  intro ds
  induction ds with
  | nil => intro d; rw [show joinNl [d] = d from rfl]; rw [show tailJoin [] = [] from rfl,
      List.append_nil]
  | cons d' ds ih =>
    intro d
    rw [joinNl_cons_cons, ih d']
    rfl

lemma collectData_join : ∀ (ls : List (List Char)),
    (∀ d ∈ ls.filterMap dataOf, d ≠ []) →
    collectData ls = joinNl (ls.filterMap dataOf) := by
  intro ls
  induction ls with
  | nil => intro _; rfl
  | cons l ls ih =>
    intro hds
    unfold collectData at ih ⊢
    rw [List.foldl_cons, List.filterMap_cons]
    rcases hd : dataOf l with _ | d <;> (try rw [hd]) <;> (try dsimp only)
    · refine ih (fun x hx => hds x ?_)
      rw [List.filterMap_cons, hd]
      exact hx
    · have hdne : d ≠ [] := by
        apply hds
        rw [List.filterMap_cons, hd]
        exact List.mem_cons_self _ _
      show List.foldl _ d ls = _
      rw [collectData_aux ls d hdne, joinNl_eq_tailJoin]

lemma sse_get_lt (e x : List Char) (j : Nat) (hj : j < e.length) :
    (e ++ x).get? j = e.get? j := List.get?_append hj

lemma sse_get_ge (e x : List Char) (k : Nat) :
    (e ++ x).get? (e.length + k) = x.get? k := by
  rw [List.get?_append_right (Nat.le_add_right _ _), Nat.add_sub_cancel_left]

/-- Inside a well-formed event head (no `'\r'`, no adjacent newlines, no
trailing newline), neither delimiter pattern occurs before the event's end. -/
lemma sseSplit (e rest delim : List Char)
    (hdelim : delim = ['\n', '\n'] ∨ delim = ['\r', '\n', '\r', '\n'])
    (hnr : '\r' ∉ e) (hadj : noAdjNl e = true)
    (hlast : e.getLast? ≠ some '\n') :
    nextSseData (e ++ delim ++ rest) =
      (if (collectData (rustLines e)).isEmpty then none
       else some (collectData (rustLines e)), rest) := by
  have hassoc : e ++ delim ++ rest = e ++ (delim ++ rest) := List.append_assoc e delim rest
  -- no lf-lf pair starts before `e.length`
  have hnolf : ∀ j, j < e.length →
      (['\n', '\n'].isPrefixOf ((e ++ (delim ++ rest)).drop j)) = false := by
    intro j hj
    rw [Bool.eq_false_iff]
    intro htrue
    rw [isPre_two] at htrue
    obtain ⟨h1, h2⟩ := htrue
    rw [List.get?_drop, Nat.add_zero] at h1
    rw [List.get?_drop] at h2
    rcases Nat.lt_or_ge (j + 1) e.length with hj1 | hj1
    · rw [sse_get_lt e _ j hj] at h1
      rw [sse_get_lt e _ (j + 1) hj1] at h2
      exact noAdjNl_no_pair e hadj j ⟨h1, h2⟩
    · have hj1' : j + 1 = e.length := Nat.le_antisymm hj hj1
      apply hlast
      rw [List.getLast?_eq_get?, ← hj1', Nat.add_sub_cancel,
        ← sse_get_lt e (delim ++ rest) j hj]
      exact h1
  -- no crlf-crlf pattern starts before `e.length`
  have hnocr : ∀ j, j < e.length →
      (['\r', '\n', '\r', '\n'].isPrefixOf ((e ++ (delim ++ rest)).drop j)) = false := by
    intro j hj
    rw [Bool.eq_false_iff]
    intro htrue
    have h1 := isPre_head '\r' ['\n', '\r', '\n'] _ htrue
    rw [List.get?_drop, Nat.add_zero, sse_get_lt e _ j hj] at h1
    exact hnr (List.get?_mem h1)
  rcases hdelim with rfl | rfl
  · -- LF LF delimiter
    have hlf : findSub ['\n', '\n'] (e ++ ['\n', '\n'] ++ rest) = some e.length := by
      rw [hassoc]
      apply findSub_eq_some
      · rw [List.drop_left]
        rw [show ['\n', '\n'] ++ rest = '\n' :: '\n' :: rest from rfl,
          List.isPrefixOf_cons₂, List.isPrefixOf_cons₂]
        simp [List.isPrefixOf_nil_left]
      · intro j hjlt
        exact hnolf j hjlt
    have hres : (e ++ ['\n', '\n'] ++ rest).drop (e.length + 2) = rest := by
      apply List.drop_left'
      simp
    have hhead : (e ++ ['\n', '\n'] ++ rest).take e.length = e := by
      rw [hassoc]
      exact List.take_left e _
    unfold nextSseData
    rw [hlf]
    rcases hcr : findSub ['\r', '\n', '\r', '\n'] (e ++ ['\n', '\n'] ++ rest) with _ | a
    · dsimp only
      rw [hhead, hres]
    · have hno_lt : ¬ a < e.length := by
        intro hlt
        have hpre := findSub_some_isPre _ _ a hcr
        rw [hassoc] at hpre
        rw [hnocr a hlt] at hpre
        cases hpre
      have hge : a ≥ e.length := Nat.le_of_not_lt hno_lt
      dsimp only
      rw [if_neg (by omega)]
      dsimp only
      rw [hhead, hres]
  · -- CRLF CRLF delimiter
    have hcr : findSub ['\r', '\n', '\r', '\n'] (e ++ ['\r', '\n', '\r', '\n'] ++ rest)
        = some e.length := by
      rw [hassoc]
      apply findSub_eq_some
      · rw [List.drop_left]
        rw [show ['\r', '\n', '\r', '\n'] ++ rest = '\r' :: '\n' :: '\r' :: '\n' :: rest
            from rfl,
          List.isPrefixOf_cons₂, List.isPrefixOf_cons₂, List.isPrefixOf_cons₂,
          List.isPrefixOf_cons₂]
        simp [List.isPrefixOf_nil_left]
      · intro j hjlt
        exact hnocr j hjlt
    have hres : (e ++ ['\r', '\n', '\r', '\n'] ++ rest).drop (e.length + 4) = rest := by
      apply List.drop_left'
      simp
    have hhead : (e ++ ['\r', '\n', '\r', '\n'] ++ rest).take e.length = e := by
      rw [hassoc]
      exact List.take_left e _
    unfold nextSseData
    rw [hcr]
    rcases hlf : findSub ['\n', '\n'] (e ++ ['\r', '\n', '\r', '\n'] ++ rest) with _ | b
    · dsimp only
      rw [hhead, hres]
    · have hgt : e.length < b := by
        have hpre := findSub_some_isPre _ _ b hlf
        rcases Nat.lt_or_ge b e.length with hlt | hge
        · rw [hassoc, hnolf b hlt] at hpre
          cases hpre
        · rcases Nat.eq_or_lt_of_le hge with heq | hgt
          · exfalso
            rw [isPre_two] at hpre
            obtain ⟨h1, -⟩ := hpre
            rw [List.get?_drop, Nat.add_zero, hassoc, ← heq,
              show e.length = e.length + 0 from rfl, sse_get_ge e _ 0] at h1
            simp at h1
          · exact hgt
      dsimp only
      rw [if_pos hgt]
      dsimp only
      rw [hhead, hres]

lemma fragsConcat_cons (ch : OpenAiStreamChunk) (rest : List OpenAiStreamChunk) (k : Nat) :
    fragsConcat (ch :: rest) k = chunkFrags ch k ++ fragsConcat rest k := by
  unfold fragsConcat
  rw [List.map_cons, strJoin_cons]

lemma processChunks_invariant (parse : String → Option Json) (cs : List OpenAiStreamChunk) :
    ∀ st₀ st evs, processChunks parse st₀ cs = .ok (st, evs) →
      st.content = st₀.content ++ String.join (textDeltas evs) ∧
      (∀ k, ToolMap.argsAt st.tools k = ToolMap.argsAt st₀.tools k ++ fragsConcat cs k) ∧
      ((st₀.tools.map (·.1)).Pairwise (· < ·) → (st.tools.map (·.1)).Pairwise (· < ·)) ∧
      st.usage = (match lastUsage evs with | some u => some u | none => st₀.usage) := by
  induction cs with
  | nil =>
    intro st₀ st evs h
    unfold processChunks at h
    rw [Except.ok.injEq, Prod.mk.injEq] at h
    obtain ⟨hst, hev⟩ := h
    subst hst; subst hev
    refine ⟨by rw [show String.join (textDeltas []) = "" from rfl, String.append_empty],
      fun k => ?_, id, rfl⟩
    rw [show fragsConcat [] k = "" from rfl, String.append_empty]
  | cons ch rest ih =>
    intro st₀ st evs h
    unfold processChunks at h
    rcases happ : st₀.apply parse ch with e | ⟨st1, evs1⟩ <;> rw [happ] at h
    · cases h
    · dsimp only at h
      rcases hrec : processChunks parse st1 rest with e | ⟨st2, evs2⟩ <;> rw [hrec] at h
      · cases h
      · dsimp only at h
        rw [Except.ok.injEq, Prod.mk.injEq] at h
        obtain ⟨hst, hev⟩ := h
        subst hst; subst hev
        obtain ⟨a1, a2, a3, a4, a5⟩ := apply_invariant parse st₀ ch st1 evs1 happ
        obtain ⟨p1, p2, p3, p4⟩ := ih st1 st2 evs2 hrec
        refine ⟨?_, fun k => ?_, fun hp => p3 (a3 hp), ?_⟩
        · rw [p1, a1, textDeltas_append, strJoin_append, String.append_assoc]
        · rw [p2 k, a2 k, fragsConcat_cons, String.append_assoc]
        · rw [p4, lastUsage_append]
          rcases hl2 : lastUsage evs2 with _ | u
          · rw [a5]
            rcases hcu : ch.usage with _ | u' <;> rw [hcu] at a4 <;> dsimp only <;> exact a4
          · rfl

lemma new_ok_of_nonblank (s : String) (h : (rustTrim s.data).isEmpty = false) :
    NonEmptyString.new s = .ok ⟨s⟩ := by
  unfold NonEmptyString.new
  rw [h]
  rfl

lemma finishTools_ok_spec (parse : String → Option Json) (m : ToolMap) :
    ∀ tcs, finishTools parse m = .ok tcs →
      tcs.length = m.length ∧
      ∀ i (hi : i < m.length) (hi' : i < tcs.length),
        parse (m.get ⟨i, hi⟩).2.args = some ((tcs.get ⟨i, hi'⟩).arguments) := by
  induction m with
  | nil =>
    intro tcs h
    unfold finishTools at h
    rw [Except.ok.injEq] at h
    subst h
    exact ⟨rfl, fun i hi _ => absurd hi (by simp)⟩
  | cons e rest ih =>
    intro tcs h
    obtain ⟨k, acc⟩ := e
    unfold finishTools at h
    rcases hid : acc.id with _ | i <;> rw [hid] at h
    · cases h
    · dsimp only at h
      rcases hnm : acc.name with _ | n <;> rw [hnm] at h
      · cases h
      · dsimp only at h
        rcases hpargs : parse acc.args with _ | j <;> rw [hpargs] at h
        · cases h
        · dsimp only at h
          rcases hne1 : NonEmptyString.new i with e1 | idv <;> rw [hne1] at h
          · cases h
          · rcases hne2 : NonEmptyString.new n with e2 | nm2 <;> rw [hne2] at h
            · cases h
            · dsimp only at h
              rcases hrec : finishTools parse rest with e3 | tcs' <;> rw [hrec] at h
              · cases h
              · dsimp only at h
                rw [Except.ok.injEq] at h
                subst h
                obtain ⟨hlen, hpt⟩ := ih tcs' hrec
                refine ⟨by simp [hlen], ?_⟩
                intro i hi hi'
                match i with
                | 0 => exact hpargs
                | j + 1 =>
                  exact hpt j (Nat.lt_of_succ_lt_succ (by simpa using hi))
                    (Nat.lt_of_succ_lt_succ (by simpa using hi'))

lemma finishTools_err_spec (parse : String → Option Json) (m : ToolMap)
    (hblank : ∀ e ∈ m,
      (∀ x, e.2.id = some x → (rustTrim x.data).isEmpty = false) ∧
      (∀ x, e.2.name = some x → (rustTrim x.data).isEmpty = false)) :
    (∃ e ∈ m, e.2.id = none ∨ e.2.name = none ∨ parse e.2.args = none) →
    ∃ msg, finishTools parse m = .error (.provider msg) := by
  induction m with
  | nil => rintro ⟨e, he, -⟩; cases he
  | cons e rest ih =>
    obtain ⟨k, acc⟩ := e
    intro hbad
    rcases hid : acc.id with _ | i
    · exact ⟨_, by unfold finishTools; rw [hid]⟩
    · rcases hnm : acc.name with _ | n
      · exact ⟨_, by unfold finishTools; rw [hid, hnm]⟩
      · rcases hpargs : parse acc.args with _ | j
        · exact ⟨_, by unfold finishTools; rw [hid, hnm, hpargs]⟩
        · have hhead := hblank (k, acc) (List.mem_cons_self _ _)
          have hne1 : NonEmptyString.new i = .ok ⟨i⟩ :=
            new_ok_of_nonblank i (hhead.1 i hid)
          have hne2 : NonEmptyString.new n = .ok ⟨n⟩ :=
            new_ok_of_nonblank n (hhead.2 n hnm)
          obtain ⟨e', he', hbad'⟩ := hbad
          rcases List.mem_cons.mp he' with heq | hmem
          · subst heq
            rcases hbad' with h1 | h1 | h1
            · rw [hid] at h1; cases h1
            · rw [hnm] at h1; cases h1
            · rw [hpargs] at h1; cases h1
          · obtain ⟨msg, hmsg⟩ :=
              ih (fun e he => hblank e (List.mem_cons_of_mem _ he)) ⟨e', hmem, hbad'⟩
            refine ⟨msg, ?_⟩
            unfold finishTools
            rw [hid, hnm, hpargs]
            dsimp only
            rw [hne1, hne2, hmsg]

lemma execCalls_ok_spec (ts : ToolSet) (ctx : ToolContext) (cs : List ToolCall)
    (hexec : ∀ c ∈ cs, ∃ t r, ts.get c.name = some t ∧
      t.execute c.arguments ctx = Except.ok r) :
    ∀ tr, ∃ ms, execCalls ts ctx tr cs = (tr ++ ms, .ok ()) ∧
      ms.length = cs.length ∧
      (∀ m ∈ ms, isToolMsg m = true) ∧
      (∀ i (hi : i < ms.length) (hi' : i < cs.length),
        ∃ content, ms.get ⟨i, hi⟩ = ChatMessage.tool (cs.get ⟨i, hi'⟩).id content) := by
  induction cs with
  | nil =>
    intro tr
    exact ⟨[], by simp [execCalls], rfl, by simp,
      fun i hi _ => absurd hi (by simp)⟩
  | cons c rest ih =>
    intro tr
    obtain ⟨t, r, hget, hex⟩ := hexec c (List.mem_cons_self c rest)
    obtain ⟨ms', hrec, hlen, htool, hpt⟩ :=
      ih (fun c' hc' => hexec c' (List.mem_cons_of_mem c hc'))
        (tr ++ [ChatMessage.tool c.id r.content])
    refine ⟨ChatMessage.tool c.id r.content :: ms', ?_, by simp [hlen], ?_, ?_⟩
    · unfold execCalls
      rw [hget]
      dsimp only
      rw [hex]
      dsimp only
      rw [hrec]
      simp
    · intro m hm
      rcases List.mem_cons.mp hm with h | h
      · subst h; rfl
      · exact htool m h
    · intro i hi hi'
      match i with
      | 0 => exact ⟨r.content, rfl⟩
      | j + 1 =>
        exact hpt j (Nat.lt_of_succ_lt_succ (by simpa using hi))
          (Nat.lt_of_succ_lt_succ (by simpa using hi'))

lemma countTool_append (a b : List ChatMessage) :
    countTool (a ++ b) = countTool a + countTool b := by
  simp [countTool]

lemma countAssistant_append (a b : List ChatMessage) :
    countAssistant (a ++ b) = countAssistant a + countAssistant b := by
  simp [countAssistant]

lemma countTool_all_tool (ms : List ChatMessage) (h : ∀ m ∈ ms, isToolMsg m = true) :
    countTool ms = ms.length := by
  simp [countTool, List.filter_eq_self.mpr h]

lemma countAssistant_all_tool (ms : List ChatMessage) (h : ∀ m ∈ ms, isToolMsg m = true) :
    countAssistant ms = 0 := by
  have h' : ∀ m ∈ ms, ¬ (isAssistantMsg m = true) := by
    intro m hm
    have := h m hm
    cases m <;> simp_all [isToolMsg, isAssistantMsg]
  simp [countAssistant, List.filter_eq_nil_iff.mpr h']

lemma countAssistant_cons_assistant (c : String) (cs : List ToolCall) (l : List ChatMessage) :
    countAssistant (ChatMessage.assistant c cs :: l) = countAssistant l + 1 := by
  simp [countAssistant, List.filter_cons, isAssistantMsg, Nat.add_comm]

lemma countTool_cons_assistant (c : String) (cs : List ToolCall) (l : List ChatMessage) :
    countTool (ChatMessage.assistant c cs :: l) = countTool l := by
  simp [countTool, List.filter_cons, isToolMsg]

lemma runLoop_succ_tools {σ : Type} (chat : ChatRequest → σ → Except PiError (ChatResponse × σ))
    (ts : ToolSet) (cfg : AgentConfig) (ctx : ToolContext) (n : Nat) (s : σ)
    (tr : List ChatMessage) (resp : ChatResponse) (s' : σ) (c : String) (cs : List ToolCall)
    (hchat : chat (mkRequest cfg ts tr) s = .ok (resp, s'))
    (hasst : resp.assistant = ChatMessage.assistant c cs)
    (hne : cs ≠ [])
    (hexec : ∀ call ∈ cs, ∃ t r, ts.get call.name = some t ∧
      t.execute call.arguments ctx = Except.ok r) :
    ∃ ms, runLoop chat ts cfg ctx (n + 1) s tr
        = runLoop chat ts cfg ctx n s' (tr ++ ChatMessage.assistant c cs :: ms) ∧
      ms.length = cs.length ∧
      (∀ m ∈ ms, isToolMsg m = true) ∧
      (∀ i (hi : i < ms.length) (hi' : i < cs.length),
        ∃ content, ms.get ⟨i, hi⟩ = ChatMessage.tool (cs.get ⟨i, hi'⟩).id content) := by
  obtain ⟨ms, hexecEq, hlen, htool, hpt⟩ :=
    execCalls_ok_spec ts ctx cs hexec (tr ++ [ChatMessage.assistant c cs])
  refine ⟨ms, ?_, hlen, htool, hpt⟩
  conv_lhs => rw [runLoop]
  rw [hchat]
  dsimp only
  rw [hasst]
  dsimp only
  rw [if_neg (by simpa [List.isEmpty_iff] using hne)]
  rw [hexecEq]
  dsimp only
  simp [List.append_assoc]

lemma runLoop_succ_done {σ : Type} (chat : ChatRequest → σ → Except PiError (ChatResponse × σ))
    (ts : ToolSet) (cfg : AgentConfig) (ctx : ToolContext) (n : Nat) (s : σ)
    (tr : List ChatMessage) (resp : ChatResponse) (s' : σ) (c : String)
    (hchat : chat (mkRequest cfg ts tr) s = .ok (resp, s'))
    (hasst : resp.assistant = ChatMessage.assistant c []) :
    runLoop chat ts cfg ctx (n + 1) s tr = (tr ++ [ChatMessage.assistant c []], s', .ok ()) := by
  conv_lhs => rw [runLoop]
  rw [hchat]
  dsimp only
  rw [hasst]
  dsimp only
  rfl

lemma runLoop_succ_unknown {σ : Type} (chat : ChatRequest → σ → Except PiError (ChatResponse × σ))
    (ts : ToolSet) (cfg : AgentConfig) (ctx : ToolContext) (n : Nat) (s : σ)
    (tr : List ChatMessage) (resp : ChatResponse) (s' : σ) (c : String)
    (cbad : ToolCall) (more : List ToolCall)
    (hchat : chat (mkRequest cfg ts tr) s = .ok (resp, s'))
    (hasst : resp.assistant = ChatMessage.assistant c (cbad :: more))
    (hmiss : ts.get cbad.name = none) :
    runLoop chat ts cfg ctx (n + 1) s tr =
      (tr ++ [ChatMessage.assistant c (cbad :: more)], s',
       .error (.tool ("unknown tool: " ++ cbad.name.val))) := by
  have hex : execCalls ts ctx (tr ++ [ChatMessage.assistant c (cbad :: more)]) (cbad :: more)
      = (tr ++ [ChatMessage.assistant c (cbad :: more)],
         .error (.tool ("unknown tool: " ++ cbad.name.val))) := by
    unfold execCalls
    rw [hmiss]
  conv_lhs => rw [runLoop]
  rw [hchat]
  dsimp only
  rw [hasst]
  dsimp only
  rw [if_neg (by simp)]
  rw [hex]

lemma runLoop_always_tools {σ : Type} (f : σ → ChatResponse × σ) (ts : ToolSet)
    (cfg : AgentConfig) (ctx : ToolContext)
    (hf : ∀ s, ∃ c cs, (f s).1.assistant = ChatMessage.assistant c cs ∧ cs ≠ [] ∧
      ∀ call ∈ cs, ∃ t r, ts.get call.name = some t ∧
        t.execute call.arguments ctx = Except.ok r) :
    ∀ (N : Nat) (s : σ) (tr : List ChatMessage),
      ∃ ext, runLoop (fun _ s => .ok (f s)) ts cfg ctx N s tr =
        (tr ++ ext, stateAfter f N s, .error (.provider "max_steps reached")) ∧
        countAssistant ext = N ∧ countTool ext = sumCalls f N s := by
  intro N
  induction N with
  | zero =>
    intro s tr
    exact ⟨[], by simp [runLoop, stateAfter, sumCalls], rfl, rfl⟩
  | succ n ih =>
    intro s tr
    obtain ⟨c, cs, hasst, hne, hcalls⟩ := hf s
    obtain ⟨ms, hstep, hlen, htool, _⟩ :=
      runLoop_succ_tools (fun _ s => .ok (f s)) ts cfg ctx n s tr (f s).1 (f s).2 c cs
        rfl hasst hne hcalls
    obtain ⟨ext, hrec, hca, hct⟩ := ih (f s).2 (tr ++ ChatMessage.assistant c cs :: ms)
    refine ⟨ChatMessage.assistant c cs :: (ms ++ ext), ?_, ?_, ?_⟩
    · rw [hstep, hrec]
      simp [stateAfter, List.append_assoc]
    · rw [countAssistant_cons_assistant, countAssistant_append,
        countAssistant_all_tool ms htool, hca]
      omega
    · rw [countTool_cons_assistant, countTool_append, countTool_all_tool ms htool,
        hct, hlen]
      show cs.length + sumCalls f n (f s).2
        = (callsOf (f s).1.assistant).length + sumCalls f n (f s).2
      rw [hasst]
      rfl

/-! Claim theorems. -/

/-- C1: for a successful run in which the provider first answers with an
assistant message carrying tool calls `cs` (each resolvable and executing
successfully) and then an assistant message with no tool calls,
`Agent::run_to_end` appends — in exact order — `User(user_input)`, the first
assistant message, one `Tool` message per call in call order whose
`tool_call_id` is the corresponding call's id, then the final assistant
message, and returns success.  (`initialTranscript` is the transcript after
the optional system-prompt preamble; the appended suffix starts with the
user message.) -/
theorem c1_transcript_order (ts : ToolSet) (cfg : AgentConfig) (ctx : ToolContext)
    (tr : List ChatMessage) (u : String) (c1 c2 : String)
    (cs : List ToolCall) (r1 r2 : ChatResponse)
    (hr1 : r1.assistant = ChatMessage.assistant c1 cs)
    (hr2 : r2.assistant = ChatMessage.assistant c2 [])
    (hne : cs ≠ [])
    (hsteps : 2 ≤ cfg.max_steps)
    (hexec : ∀ c ∈ cs, ∃ t r, ts.get c.name = some t ∧
      t.execute c.arguments ctx = Except.ok r) :
    ∃ ms, run_to_end scriptChat ts cfg ctx [r1, r2] tr u =
      (initialTranscript cfg tr ++ [ChatMessage.user u, ChatMessage.assistant c1 cs]
        ++ ms ++ [ChatMessage.assistant c2 []], [], .ok ()) ∧
      ms.length = cs.length ∧
      (∀ i (hi : i < ms.length) (hi' : i < cs.length),
        ∃ content, ms.get ⟨i, hi⟩ = ChatMessage.tool (cs.get ⟨i, hi'⟩).id content) := by
  obtain ⟨m, hm⟩ : ∃ m, cfg.max_steps = m + 2 := ⟨cfg.max_steps - 2, by omega⟩
  obtain ⟨ms, hstep1, hlen, _, hpt⟩ :=
    runLoop_succ_tools scriptChat ts cfg ctx (m + 1) [r1, r2]
      (initialTranscript cfg tr ++ [ChatMessage.user u]) r1 [r2] c1 cs
      rfl hr1 hne hexec
  have hstep2 :=
    runLoop_succ_done scriptChat ts cfg ctx m [r2]
      ((initialTranscript cfg tr ++ [ChatMessage.user u])
        ++ ChatMessage.assistant c1 cs :: ms) r2 [] c2 rfl hr2
  refine ⟨ms, ?_, hlen, hpt⟩
  unfold run_to_end
  rw [hm, show m + 2 = (m + 1) + 1 from rfl, hstep1, hstep2]
  simp [List.append_assoc]

/-- C1 (witness): the echo scenario of the core test
(`agent_tool_loop_orders_messages`). -/
theorem c1_witness :
    ∃ ms, run_to_end scriptChat testTools cfgTest ctxTest [respToolCall, respDone] [] "go" =
      (initialTranscript cfgTest [] ++ [ChatMessage.user "go", ChatMessage.assistant "" [call1]]
        ++ ms ++ [ChatMessage.assistant "done" []], [], .ok ()) ∧
      ms.length = [call1].length ∧
      (∀ i (hi : i < ms.length) (hi' : i < [call1].length),
        ∃ content, ms.get ⟨i, hi⟩ = ChatMessage.tool ([call1].get ⟨i, hi'⟩).id content) :=
  c1_transcript_order testTools cfgTest ctxTest [] "go" "" "done" [call1]
    respToolCall respDone rfl rfl (List.cons_ne_nil _ _) (by decide)
    (fun c hc => by
      rcases List.mem_singleton.mp hc with rfl
      exact ⟨echoTool, ⟨"hi", none⟩, rfl, rfl⟩)

/-- C2 (counterexample): the claim's finalization sentence — "every
accumulated tool must have id and name present and args that parse as JSON,
otherwise finish fails with Provider" — is false as stated: after this
accepted chunk sequence, tool 1 has no id (so the requirement is violated),
yet `finish` fails with `Invalid("empty string")`, not with a `Provider`
error, because tool 0's id, while present, is blank and
`NonEmptyString::new` rejects it first. -/
theorem c2_counterexample :
    ∃ st evs, processChunks parseCx {} [cx1, cx2, cx3, cx4] = .ok (st, evs) ∧
      (∃ e ∈ st.tools, e.2.id = none ∨ e.2.name = none ∨ parseCx e.2.args = none) ∧
      st.finish parseCx = .error (.invalid "empty string") ∧
      ∀ msg, st.finish parseCx ≠ .error (.provider msg) := by
  refine ⟨cxState, [], rfl, ⟨(1, ⟨none, none, "\x7b\x7d"⟩), ?_, Or.inl rfl⟩, rfl, ?_⟩
  · show _ ∈ [(0, (⟨some " ", some "x", "\x7b\x7d"⟩ : ToolAcc)),
      (1, (⟨none, none, "\x7b\x7d"⟩ : ToolAcc))]
    simp
  · intro msg h
    rw [show cxState.finish parseCx = .error (.invalid "empty string") from rfl] at h
    cases h

/-- C2 (amended): for every accepted chunk sequence, the concatenation of the
emitted `TextDelta` payloads equals the final assistant content; the last
emitted `Usage` equals the finalized usage; and each finalized tool call's
arguments are the parse of the concatenated fragments accumulated at its
index.  At finalization every accumulated tool must have id and name present
and args that parse as JSON; when that fails, `finish` errors — with
`Provider`, provided every id and name that is present is non-blank (a
present-but-blank id or name fails with `Invalid` instead, as the
counterexample shows). -/
theorem c2_stream_fold (parse : String → Option Json) (cs : List OpenAiStreamChunk)
    (st : StreamAssembler) (evs : List ChatStreamEvent)
    (hp : processChunks parse {} cs = .ok (st, evs)) :
    (∀ content tcs usage cost,
      st.finish parse = .ok ⟨ChatMessage.assistant content tcs, usage, cost⟩ →
      content = String.join (textDeltas evs) ∧
      usage = lastUsage evs ∧
      tcs.length = st.tools.length ∧
      (∀ i (hi : i < st.tools.length) (hi' : i < tcs.length),
        parse (fragsConcat cs (st.tools.get ⟨i, hi⟩).1)
          = some ((tcs.get ⟨i, hi'⟩).arguments))) ∧
    ((∀ e ∈ st.tools,
        (∀ x, e.2.id = some x → (rustTrim x.data).isEmpty = false) ∧
        (∀ x, e.2.name = some x → (rustTrim x.data).isEmpty = false)) →
     (∃ e ∈ st.tools, e.2.id = none ∨ e.2.name = none ∨ parse e.2.args = none) →
     ∃ msg, st.finish parse = .error (.provider msg)) := by
  obtain ⟨P1, P2, P3, P4⟩ := processChunks_invariant parse cs {} st evs hp
  have hpair : (st.tools.map (·.1)).Pairwise (· < ·) := P3 (by simp)
  have hargs : ∀ k, ToolMap.argsAt st.tools k = fragsConcat cs k := fun k => by
    have := P2 k
    rwa [show ToolMap.argsAt ({} : StreamAssembler).tools k = "" from rfl,
      String.empty_append] at this
  constructor
  · intro content tcs usage cost hfin
    unfold StreamAssembler.finish at hfin
    rcases hft : finishTools parse st.tools with e | tcs' <;> rw [hft] at hfin
    · cases hfin
    · dsimp only at hfin
      rw [Except.ok.injEq, ChatResponse.mk.injEq] at hfin
      obtain ⟨hasst, husage, hcost⟩ := hfin
      rw [ChatMessage.assistant.injEq] at hasst
      obtain ⟨hcontent, htcs⟩ := hasst
      subst hcontent
      subst htcs
      subst husage
      obtain ⟨hlen, hpt⟩ := finishTools_ok_spec parse st.tools tcs' hft
      refine ⟨?_, ?_, hlen, ?_⟩
      · rw [P1, show StreamAssembler.content {} = "" from rfl, String.empty_append]
      · rw [P4]
        rcases hl : lastUsage evs with _ | u <;> rfl
      · intro i hi hi'
        have hmem : st.tools.get ⟨i, hi⟩ ∈ st.tools := List.get_mem _ _ _
        have hfind : st.tools.find? (fun e => e.1 == (st.tools.get ⟨i, hi⟩).1)
            = some (st.tools.get ⟨i, hi⟩) :=
          find?_of_mem_pairwise st.tools (st.tools.get ⟨i, hi⟩).1
            (st.tools.get ⟨i, hi⟩).2 hpair hmem
        have hargsEntry : ToolMap.argsAt st.tools (st.tools.get ⟨i, hi⟩).1
            = (st.tools.get ⟨i, hi⟩).2.args := by
          unfold ToolMap.argsAt
          rw [hfind]
          rfl
        rw [← hargs, hargsEntry]
        exact hpt i hi hi'
  · intro hblank hbad
    obtain ⟨msg, hmsg⟩ := finishTools_err_spec parse st.tools hblank hbad
    refine ⟨msg, ?_⟩
    unfold StreamAssembler.finish
    rw [hmsg]

/-- C2 (witness): the amended statement applied to scenario S2 (text delta,
then split tool-call arguments, then usage) — the text concatenates to the
final content, the usage matches, and the fragment concatenation at index 0
parses to the final arguments — and, on a second instance whose accumulated
tool never receives a name, finalization fails with a `Provider` error. -/
theorem c2_witness :
    ("Hello " = String.join (textDeltas s2Events) ∧
     some (⟨1, 2, 3, 0, 0⟩ : TokenUsage) = lastUsage s2Events ∧
     parseS2 (fragsConcat [s2c1, s2c2, s2c3] 0)
       = some (Json.obj [("text", Json.str "hi")])) ∧
    (∃ msg, wbState.finish parseCx = .error (.provider msg)) := by
  have h := c2_stream_fold parseS2 [s2c1, s2c2, s2c3] s2State s2Events rfl
  have hA := h.1 "Hello "
    [⟨⟨"call_1"⟩, ⟨"echo"⟩, Json.obj [("text", Json.str "hi")]⟩]
    (some ⟨1, 2, 3, 0, 0⟩) none rfl
  have h2 := c2_stream_fold parseCx [wbChunk] wbState [] rfl
  have hB := h2.2
    (fun e he => by
      rcases List.mem_singleton.mp he with rfl
      exact ⟨fun x hx => by cases hx; decide, fun x hx => by cases hx⟩)
    ⟨(0, ⟨some "call_1", none, "\x7b\x7d"⟩), List.mem_singleton.mpr rfl,
      Or.inr (Or.inl rfl)⟩
  exact ⟨⟨hA.1, hA.2.1, hA.2.2.2 0 (by decide) (by decide)⟩, hB⟩

/-- C3: against a provider that always answers with an assistant message
carrying at least one tool call (all resolvable and executing successfully),
a run with `max_steps = N` fails with `Provider("max_steps reached")` after
exactly `N` provider invocations — the provider state ends at `stateAfter f N`,
one step per invocation — having appended `N` assistant messages and executed
(and recorded) every tool call of every turn: the appended `Tool` messages
number `sumCalls f N`, the total count of issued calls. -/
theorem c3_max_steps {σ : Type} (f : σ → ChatResponse × σ) (ts : ToolSet)
    (cfg : AgentConfig) (ctx : ToolContext) (s₀ : σ) (tr : List ChatMessage) (u : String)
    (hf : ∀ s, ∃ c cs, (f s).1.assistant = ChatMessage.assistant c cs ∧ cs ≠ [] ∧
      ∀ call ∈ cs, ∃ t r, ts.get call.name = some t ∧
        t.execute call.arguments ctx = Except.ok r) :
    ∃ ext, run_to_end (fun _ s => .ok (f s)) ts cfg ctx s₀ tr u =
      (initialTranscript cfg tr ++ [ChatMessage.user u] ++ ext,
       stateAfter f cfg.max_steps s₀, .error (.provider "max_steps reached")) ∧
      countAssistant ext = cfg.max_steps ∧
      countTool ext = sumCalls f cfg.max_steps s₀ := by
  obtain ⟨ext, h1, h2, h3⟩ :=
    runLoop_always_tools f ts cfg ctx hf cfg.max_steps s₀
      (initialTranscript cfg tr ++ [ChatMessage.user u])
  exact ⟨ext, by simpa [run_to_end, List.append_assoc] using h1, h2, h3⟩

/-- C3 (witness): `max_steps = 2` against the always-tool-call provider whose
state counts invocations: the run errs, the counter ends at 2, and two tool
executions are recorded. -/
theorem c3_witness :
    ∃ ext, run_to_end (fun _ s => .ok (alwaysToolStep s)) testTools cfgTwoSteps ctxTest
        0 [] "go" =
      (initialTranscript cfgTwoSteps [] ++ [ChatMessage.user "go"] ++ ext,
       2, .error (.provider "max_steps reached")) ∧
      countAssistant ext = 2 ∧ countTool ext = 2 :=
  c3_max_steps alwaysToolStep testTools cfgTwoSteps ctxTest 0 [] "go"
    (fun _ => ⟨"", [call1], rfl, List.cons_ne_nil _ _,
      fun c hc => by
        rcases List.mem_singleton.mp hc with rfl
        exact ⟨echoTool, ⟨"hi", none⟩, rfl, rfl⟩⟩)

/-- C4: when the provider's answer is an assistant message whose first tool
call names a tool absent from the `ToolSet`, the run fails with
`Tool("unknown tool: <name>")` and the transcript ends with the offending
assistant message — no `Tool` message is appended for the missing call. -/
theorem c4_unknown_tool {σ : Type} (chat : ChatRequest → σ → Except PiError (ChatResponse × σ))
    (ts : ToolSet) (cfg : AgentConfig) (ctx : ToolContext) (s₀ s₁ : σ)
    (tr : List ChatMessage) (u : String) (c1 : String)
    (cbad : ToolCall) (more : List ToolCall) (r1 : ChatResponse)
    (hsteps : 1 ≤ cfg.max_steps)
    (hchat : chat (mkRequest cfg ts (initialTranscript cfg tr ++ [ChatMessage.user u])) s₀
      = .ok (r1, s₁))
    (hr1 : r1.assistant = ChatMessage.assistant c1 (cbad :: more))
    (hmiss : ts.get cbad.name = none) :
    run_to_end chat ts cfg ctx s₀ tr u =
      (initialTranscript cfg tr
        ++ [ChatMessage.user u, ChatMessage.assistant c1 (cbad :: more)],
       s₁, .error (.tool ("unknown tool: " ++ cbad.name.val))) := by
  obtain ⟨m, hm⟩ : ∃ m, cfg.max_steps = m + 1 := ⟨cfg.max_steps - 1, by omega⟩
  unfold run_to_end
  rw [hm, runLoop_succ_unknown chat ts cfg ctx m s₀ _ r1 s₁ c1 cbad more hchat hr1 hmiss]
  simp [List.append_assoc]

/-- C4 (witness): a scripted provider calling the unregistered tool `nope`. -/
theorem c4_witness :
    run_to_end scriptChat testTools cfgTest ctxTest [respBadCall] [] "go" =
      (initialTranscript cfgTest []
        ++ [ChatMessage.user "go", ChatMessage.assistant "" [badCall]],
       [], .error (.tool ("unknown tool: " ++ badCall.name.val))) :=
  c4_unknown_tool scriptChat testTools cfgTest ctxTest [respBadCall] [] [] "go" ""
    badCall [] respBadCall (by decide) rfl rfl rfl

/-- C5 (counterexample): `ToolSet::new` applied to a collection in which two
tools carry the same spec name `"echo"` does not fail with `Invalid` — it is
total and yields a `ToolSet` containing both same-named tools, refuting the
claim that construction must fail (and that it can never yield duplicates). -/
theorem c5_counterexample :
    (ToolSet.new [echoTool, echoTool2]).tools.map (fun t => t.spec.name.val)
      = ["echo", "echo"] ∧
    (ToolSet.new [echoTool, echoTool2]).tools.length = 2 ∧
    (ToolSet.new [echoTool, echoTool2]).get ⟨"echo"⟩ = some echoTool :=
  ⟨rfl, rfl, rfl⟩

/-- C5 (amended): `ToolSet::new` never fails — it accepts any collection,
duplicate names included, and stores it unchanged; `get(name)` returns the
first tool whose `spec.name` matches the requested name exactly
(case-sensitive string equality). -/
theorem c5_toolset_new_and_get (l : List Tool) (n : NonEmptyString) (i : Nat)
    (hi : i < l.length)
    (hname : (l.get ⟨i, hi⟩).spec.name.val = n.val)
    (hfirst : ∀ j (hj : j < i), (l.get ⟨j, Nat.lt_trans hj hi⟩).spec.name.val ≠ n.val) :
    (ToolSet.new l).tools = l ∧ (ToolSet.new l).get n = some (l.get ⟨i, hi⟩) := by
  refine ⟨rfl, ?_⟩
  exact find?_eq_get_of_first _ l i hi (by simpa using hname)
    (fun j hj => by simpa using hfirst j hj)

/-- C5 (witness): the amended statement applied to the duplicate collection. -/
theorem c5_witness :
    (ToolSet.new [echoTool, echoTool2]).tools = [echoTool, echoTool2] ∧
    (ToolSet.new [echoTool, echoTool2]).get ⟨"echo"⟩ = some echoTool := by
  have h := c5_toolset_new_and_get [echoTool, echoTool2] ⟨"echo"⟩ 0
    (by decide) rfl (fun j hj => absurd hj (Nat.not_lt_zero j))
  exact ⟨h.1, h.2⟩

/-- C6: when the resolved provider's `chat` succeeds, `AiClient::complete`
returns the provider response with `cost` filled in as
`model.cost.estimate_usd(usage)` exactly when the response carried a usage
but no cost; an existing cost is preserved, and with no usage the cost stays
absent. -/
theorem c6_complete_cost_injection (c : AiClient) (model : Model) (ctx : Context)
    (tools : List ToolSpec) (temp : Option ℚ) (mt : Option Nat)
    (p : ChatRequest → Except PiError ChatResponse) (resp : ChatResponse)
    (hp : c.providerFor model.provider = some p)
    (hresp : p (clientRequest model ctx tools temp mt) = .ok resp) :
    c.complete model ctx tools temp mt = .ok
      { resp with cost :=
          match resp.cost, resp.usage with
          | some cb, _ => some cb
          | none, some u => some (model.cost.estimate_usd u)
          | none, none => none } := by
  obtain ⟨asst, usg, cst⟩ := resp
  rcases cst with _ | cb <;> rcases usg with _ | u <;>
    simp [AiClient.complete, hp, hresp]

/-- C6 (witness): the stub provider carries usage and no cost, so the unit
rates of `stubModel` are injected. -/
theorem c6_witness :
    stubClient.complete stubModel ⟨[ChatMessage.user "yo"]⟩ [] none none =
      .ok ⟨ChatMessage.assistant "hi" [], some stubUsage,
           some (stubModel.cost.estimate_usd stubUsage)⟩ :=
  c6_complete_cost_injection stubClient stubModel ⟨[ChatMessage.user "yo"]⟩ [] none none
    (fun _ => .ok stubResp) stubResp rfl rfl

/-- C7 (counterexample): within one event the `data:` payloads are not
always joined by single line-feeds in order -- the separator is only added
when the accumulator is already non-empty, so for the event
`"data:\ndata: 2"` whose payloads are `""` and `"2"` the line-feed join
would be `"\n2"`, yet the framer yields `"2"`. -/
theorem c7_counterexample :
    nextSseData ("data:\ndata: 2".data ++ ['\n', '\n'] ++ []) =
      (some ("2".data), ([] : List Char)) ∧
    (rustLines ("data:\ndata: 2".data)).filterMap dataOf = [[], "2".data] ∧
    joinNl [[], "2".data] = '\n' :: "2".data ∧
    "2".data ≠ '\n' :: "2".data := by
  refine ⟨by decide, by decide, rfl, by decide⟩

/-- C7 (amended): feeding the framer `"data: 1\n\nnoise\ndata: 2\r\n\r\n"`
yields payload `"1"` and leaves `"noise\ndata: 2\r\n\r\n"` buffered, whose
extraction yields `"2"` and an empty buffer; in general, for an event head
made of lines (non-empty, free of LF and CR) followed by a blank-line
delimiter (LF+LF or CRLF+CRLF), the framer consumes exactly up to the
delimiter, returns the accumulated `data:` payloads (none when that
accumulation is empty), keeps all bytes after the delimiter buffered, and
when every payload is non-empty the accumulation is exactly the payloads
joined by single line-feeds in order. -/
theorem c7_sse_framing :
    (∀ (ls : List (List Char)) (delim rest : List Char),
        (delim = ['\n', '\n'] ∨ delim = ['\r', '\n', '\r', '\n']) →
        ls ≠ [] →
        (∀ l ∈ ls, l ≠ [] ∧ '\n' ∉ l ∧ '\r' ∉ l) →
        nextSseData (joinNl ls ++ delim ++ rest) =
          (if (collectData ls).isEmpty then none else some (collectData ls), rest) ∧
        ((∀ d ∈ ls.filterMap dataOf, d ≠ []) →
          collectData ls = joinNl (ls.filterMap dataOf))) ∧
    nextSseData ("data: 1\n\nnoise\ndata: 2\r\n\r\n".data) =
      (some ("1".data), "noise\ndata: 2\r\n\r\n".data) ∧
    nextSseData ("noise\ndata: 2\r\n\r\n".data) = (some ("2".data), []) := by
  refine ⟨?_, by decide, by decide⟩
  intro ls delim rest hdelim hne hl
  have hnr : '\r' ∉ joinNl ls :=
    mem_joinNl '\r' (by decide) ls (fun l h => (hl l h).2.2)
  have hadj := noAdjNl_joinNl ls (fun l h => ⟨(hl l h).1, (hl l h).2.1⟩)
  have hlast : (joinNl ls).getLast? ≠ some '\n' := by
    intro hcontra
    obtain ⟨l, hmem, hl'⟩ := getLast?_joinNl ls '\n' hne (fun l h => (hl l h).1) hcontra
    exact (hl l hmem).2.1 (List.mem_of_getLast?_eq_some hl')
  have hsplit := sseSplit (joinNl ls) rest delim hdelim hnr hadj hlast
  rw [rustLines_joinNl ls hne hl] at hsplit
  exact ⟨hsplit, collectData_join ls⟩

/-- C7 (witness): a two-line event `"data: a\ndata: b"` with LF+LF delimiter
and trailing bytes `"zz"`. -/
theorem c7_witness :
    nextSseData (joinNl ["data: a".data, "data: b".data] ++ ['\n', '\n'] ++ "zz".data) =
      (if (collectData ["data: a".data, "data: b".data]).isEmpty then none
       else some (collectData ["data: a".data, "data: b".data]), "zz".data) ∧
    collectData ["data: a".data, "data: b".data] =
      joinNl ((["data: a".data, "data: b".data]).filterMap dataOf) := by
  have h := c7_sse_framing.1 ["data: a".data, "data: b".data] ['\n', '\n'] "zz".data
    (Or.inl rfl) (by decide) (by decide)
  exact ⟨h.1, h.2 (by decide)⟩

/-- C8: `NonEmptyString::new` succeeds exactly when the string holds at least
one non-whitespace character; in particular `""`, `" "` and `"\t"` fail with
`Invalid("empty string")`. -/
theorem c8_non_empty_string_new :
    (∀ s : String, (∃ v, NonEmptyString.new s = .ok v) ↔
      ∃ c ∈ s.data, ¬ c.isWhitespace = true) ∧
    NonEmptyString.new "" = .error (.invalid "empty string") ∧
    NonEmptyString.new " " = .error (.invalid "empty string") ∧
    NonEmptyString.new "\t" = .error (.invalid "empty string") := by
  refine ⟨fun s => ?_, rfl, rfl, rfl⟩
  unfold NonEmptyString.new
  by_cases h : (rustTrim s.data).isEmpty
  · have hall := (rustTrim_nil_iff s.data).mp (List.isEmpty_iff.mp h)
    simp only [h, if_true]
    constructor
    · rintro ⟨v, hv⟩; cases hv
    · rintro ⟨c, hc, hw⟩; exact absurd (hall c hc) hw
  · have hne : rustTrim s.data ≠ [] := fun hnil => h (List.isEmpty_iff.mpr hnil)
    simp only [h, if_false]
    constructor
    · intro _
      by_contra hno
      push_neg at hno
      exact hne ((rustTrim_nil_iff s.data).mpr hno)
    · intro _; exact ⟨⟨s⟩, rfl⟩

/-- C9: `estimate_usd` computes each bucket as `(tokens / 1e6) × rate`, in
USD, with `total` their sum; at the fixture rates and usage the total is
`2.45` within `1e-9`.  (`f64` arithmetic is modelled exactly over `ℚ`; the
claim's `1e-9` tolerance absorbs the double-precision rounding, which is
below `1e-15` for these magnitudes.) -/
theorem c9_estimate_usd :
    (∀ (c : TokenCost) (u : TokenUsage),
      (c.estimate_usd u).input = ((u.prompt_tokens : ℚ) / 1000000) * c.input ∧
      (c.estimate_usd u).output = ((u.completion_tokens : ℚ) / 1000000) * c.output ∧
      (c.estimate_usd u).cache_read = ((u.cache_read_tokens : ℚ) / 1000000) * c.cache_read ∧
      (c.estimate_usd u).cache_write = ((u.cache_write_tokens : ℚ) / 1000000) * c.cache_write ∧
      (c.estimate_usd u).total = (c.estimate_usd u).input + (c.estimate_usd u).output
        + (c.estimate_usd u).cache_read + (c.estimate_usd u).cache_write ∧
      (c.estimate_usd u).currency = Currency.usd) ∧
    |((TokenCost.mk 2 10 1 5).estimate_usd ⟨500000, 100000, 600000, 200000, 50000⟩).total
      - 2.45| < 1e-9 := by
  refine ⟨fun c u => ⟨rfl, rfl, rfl, rfl, rfl, rfl⟩, ?_⟩
  norm_num [TokenCost.estimate_usd]

/-- C10: the first call to `ChatStream::result` yields the stream's final
outcome; every later call on the same stream yields
`Invalid("stream result already taken")`.  (The final-result future is
modelled by its resolved value; the claim concerns only the take-once
behavior of the `Option` slot.) -/
theorem c10_stream_result_single_use (s : ChatStreamSt)
    (r : Except PiError ChatResponse) (h : s.res = some r) :
    s.result.1 = r ∧
    ∀ n, ((takeN n s.result.2).result).1
      = .error (.invalid "stream result already taken") := by
  have hs : s.result = (r, ⟨none⟩) := by
    unfold ChatStreamSt.result; rw [h]
  refine ⟨by rw [hs], fun n => ?_⟩
  rw [hs]
  simp only [takeN_none]
  rfl

/-- C10 (witness): a stream holding `stubResp` yields it once, then the
`Invalid` error (shown here after three further takes). -/
theorem c10_witness :
    (ChatStreamSt.mk (some (.ok stubResp))).result.1 = .ok stubResp ∧
    ((takeN 3 (ChatStreamSt.mk (some (.ok stubResp))).result.2).result).1
      = .error (.invalid "stream result already taken") := by
  have h := c10_stream_result_single_use ⟨some (.ok stubResp)⟩ (.ok stubResp) rfl
  exact ⟨h.1, h.2 3⟩

end PiVerify
